import Mathlib

/-!
Verification of the cryptographic core of the `bunker` password manager
(`src/crypto.rs`, `src/storage.rs`, `src/commands/init.rs`).

Modelling conventions:

* Machine bytes are `Nat`s; byte strings are `List Nat` (`Bytes`).
* The external ChaCha20-Poly1305 AEAD is modelled as an ideal authenticated
  cipher: the ciphertext is an injective encoding of (key, nonce, plaintext)
  and decryption authenticates by comparing the embedded key and nonce with
  the supplied ones.  This captures exactly the functional contract the
  repository relies on (round-trip under the same key/nonce, authentication
  failure otherwise); bit-level ChaCha20 is not modelled.
* `GenericArray::from_slice` (used by `Key::from_slice` / `Nonce::from_slice`)
  panics when the slice length differs from the expected one; panics are a
  distinguished `Res.panic` outcome.
* SHA-256 (`Crypto::checksum`) is modelled as an ideal collision-free hash,
  i.e. an injective function of the input bytes.
* Argon2id (`derive_key` / `derive_session_key`) is modelled as a total
  deterministic function producing 32 bytes; only determinism and the output
  length are relied on by the code under verification.
* Randomness (nonces, salts, RNG indices) is passed in as explicit
  parameters; the source obtains these from the OS CSPRNG.
* The host platform is modelled as Linux: `std::path::MAIN_SEPARATOR` is
  `'/'`, so the separator normalisation in `walk_entries` and `entry_path`
  is the identity.
-/

namespace Bunker

/-- Byte strings (`Vec<u8>` / `&[u8]` in the source). -/
abbrev Bytes := List Nat

/-- Error taxonomy from the specification (§7); the source surfaces these as
`anyhow` messages, mapped here to their taxonomy names. -/
inductive Err where
  | DecryptFailure
  | EncryptFailure
  | ChecksumMismatch
  | NoSession
  | SessionExpired
  | VaultExists
  | EntryNotFound
  | InvalidPassword
  | ImportFailure
  | SerializationFailure
  | IoFailure
  deriving DecidableEq, Repr

/-- Outcome of a fallible Rust computation: `Ok`, `Err`, or a panic
(e.g. `GenericArray::from_slice` on a slice of the wrong length). -/
inductive Res (α : Type) where
  | ok (a : α)
  | err (e : Err)
  | panic
  deriving DecidableEq, Repr

namespace Res

def bindR {α β : Type} : Res α → (α → Res β) → Res β
  | .ok a, f => f a
  | .err e, _ => .err e
  | .panic, _ => .panic

@[simp] theorem bindR_ok {α β : Type} (a : α) (f : α → Res β) :
    (Res.ok a).bindR f = f a := rfl

@[simp] theorem bindR_err {α β : Type} (e : Err) (f : α → Res β) :
    (Res.err e).bindR f = .err e := rfl

end Res

/-- `types.rs`: `EncryptedValue` — (nonce, ciphertext, salt) triple. -/
structure EncryptedValue where
  nonce : Bytes
  ciphertext : Bytes
  salt : Bytes
  deriving DecidableEq, Repr

/-- `types.rs`: `MasterKey` — wrapper around the raw key bytes. -/
structure MasterKey where
  key : Bytes
  deriving DecidableEq, Repr

/-- Ideal AEAD encryption: the ciphertext is a length-prefixed encoding of
the key and nonce followed by the plaintext.  Injective in all three
arguments, which models the authentication property of ChaCha20-Poly1305. -/
def aeadEncrypt (key nonce pt : Bytes) : Bytes :=
  key.length :: (key ++ nonce.length :: (nonce ++ pt))

/-- Ideal AEAD decryption: recover the embedded key and nonce, compare them
with the supplied ones, and return the plaintext on match (authentication
success) or `none` (tag mismatch) otherwise. -/
def aeadDecrypt (key nonce ct : Bytes) : Option Bytes :=
  match ct with
  | [] => none
  | kl :: rest =>
      if kl = key.length ∧ rest.take kl = key then
        match rest.drop kl with
        | [] => none
        | nl :: rest2 =>
            if nl = nonce.length ∧ rest2.take nl = nonce then
              some (rest2.drop nl)
            else none
      else none

theorem aeadDecrypt_aeadEncrypt (key nonce pt : Bytes) :
    aeadDecrypt key nonce (aeadEncrypt key nonce pt) = some pt := by
  simp [aeadEncrypt, aeadDecrypt, List.take_left, List.drop_left]

theorem aeadDecrypt_wrong_key {key key' : Bytes} (nonce pt : Bytes)
    (h : key' ≠ key) :
    aeadDecrypt key' nonce (aeadEncrypt key nonce pt) = none := by
  have htake : (key ++ nonce.length :: (nonce ++ pt)).take key.length = key :=
    List.take_left key _
  simp only [aeadEncrypt, aeadDecrypt]
  rw [if_neg]
  rintro ⟨h1, h2⟩
  rw [htake] at h2
  exact h h2.symm

namespace Crypto

/-- `crypto.rs` lines 44–58, `Crypto::encrypt`.  The fresh nonce and salt
(produced there by the CSPRNG) are explicit parameters.  `Key::from_slice`
panics when the key is not 32 bytes. -/
def encrypt (data : Bytes) (key : MasterKey) (nonce salt : Bytes) :
    Res EncryptedValue :=
  if key.key.length = 32 then
    .ok { nonce := nonce, ciphertext := aeadEncrypt key.key nonce data, salt := salt }
  else
    .panic

/-- `crypto.rs` lines 61–70, `Crypto::decrypt`.  `Key::from_slice` panics on
a key that is not 32 bytes, then `Nonce::from_slice` panics on a nonce that
is not 12 bytes; an authentication failure maps to `DecryptFailure`. -/
def decrypt (encrypted : EncryptedValue) (key : MasterKey) : Res Bytes :=
  if key.key.length ≠ 32 then .panic
  else if encrypted.nonce.length ≠ 12 then .panic
  else
    match aeadDecrypt key.key encrypted.nonce encrypted.ciphertext with
    | some p => .ok p
    | none => .err .DecryptFailure

/-- `crypto.rs` lines 139–143, `Crypto::checksum`: SHA-256 of the input,
modelled as an ideal (injective) digest of the input bytes. -/
def checksum (data : Bytes) : Bytes := data

/-- Ideal Argon2id output: a total deterministic 32-byte function of
(password, salt).  Only determinism and the output length are relied on. -/
def kdfBytes (password : String) (salt : Bytes) : Bytes :=
  (List.range 32).map (fun i => (password.length + salt.length + salt.sum + i) % 256)

@[simp] theorem kdfBytes_length (password : String) (salt : Bytes) :
    (kdfBytes password salt).length = 32 := by
  simp [kdfBytes]

/-- `crypto.rs` lines 25–34, `Crypto::derive_key` (Argon2id). -/
def deriveKey (password : String) (salt : Bytes) : MasterKey :=
  ⟨kdfBytes password salt⟩

/-- `crypto.rs` lines 191–200, `Crypto::derive_session_key` — identical
Argon2id invocation returning the raw bytes. -/
def deriveSessionKey (userInput : String) (salt : Bytes) : Bytes :=
  kdfBytes userInput salt

/-- `crypto.rs` lines 203–215, `Crypto::encrypt_master_key_for_session`.
`Key::from_slice` panics unless the session key is 32 bytes; the fresh
nonce is an explicit parameter. -/
def encryptMasterKeyForSession (masterKey : MasterKey) (sessionKey : Bytes)
    (nonce : Bytes) : Res (Bytes × Bytes) :=
  if sessionKey.length = 32 then
    .ok (aeadEncrypt sessionKey nonce masterKey.key, nonce)
  else
    .panic

/-- `crypto.rs` lines 218–231, `Crypto::decrypt_master_key_from_session`.
Same panic behaviour as `decrypt`: `Key::from_slice` then
`Nonce::from_slice`. -/
def decryptMasterKeyFromSession (ciphertext nonce sessionKey : Bytes) :
    Res MasterKey :=
  if sessionKey.length ≠ 32 then .panic
  else if nonce.length ≠ 12 then .panic
  else
    match aeadDecrypt sessionKey nonce ciphertext with
    | some p => .ok ⟨p⟩
    | none => .err .DecryptFailure

/-- `crypto.rs` lines 146–155, `Crypto::encrypt_with_password`: derive an
ephemeral key from a fresh salt, AEAD-encrypt, return (ciphertext, nonce,
salt).  The inner salt generated by `encrypt` is discarded. -/
def encryptWithPassword (data : Bytes) (password : String)
    (salt nonce innerSalt : Bytes) : Res (Bytes × Bytes × Bytes) :=
  (encrypt data (deriveKey password salt) nonce innerSalt).bindR
    (fun ev => .ok (ev.ciphertext, ev.nonce, salt))

/-- `crypto.rs` lines 158–172, `Crypto::decrypt_with_password`. -/
def decryptWithPassword (ciphertext nonce salt : Bytes) (password : String) :
    Res Bytes :=
  decrypt { nonce := nonce, ciphertext := ciphertext, salt := salt }
    (deriveKey password salt)

end Crypto

/-- C1 round-trip part, packaged for reuse: encrypt-then-decrypt under the
same (32-byte) key succeeds with the original plaintext. -/
theorem encrypt_decrypt_roundtrip (p : Bytes) (k : MasterKey) (n s : Bytes)
    (hk : k.key.length = 32) (hn : n.length = 12) :
    (Crypto.encrypt p k n s).bindR (fun ev => Crypto.decrypt ev k) = .ok p := by
  simp [Crypto.encrypt, Crypto.decrypt, hk, hn, aeadDecrypt_aeadEncrypt]

/-- C1 wrong-key part, packaged for reuse. -/
theorem encrypt_decrypt_wrong_key (p : Bytes) (k k' : MasterKey) (n s : Bytes)
    (hk : k.key.length = 32) (hk' : k'.key.length = 32) (hn : n.length = 12)
    (hne : k' ≠ k) :
    (Crypto.encrypt p k n s).bindR (fun ev => Crypto.decrypt ev k') =
      .err .DecryptFailure := by
  have hkk : k'.key ≠ k.key := by
    intro h
    exact hne (by cases k; cases k'; simpa using h)
  simp [Crypto.encrypt, Crypto.decrypt, hk, hk', hn,
    aeadDecrypt_wrong_key n p hkk]

/-- **C1.** For every plaintext `p` and master key `k` (32 bytes, per the
data-model invariant), `decrypt (encrypt p k) k` returns `p`; and for every
other 32-byte key `k' ≠ k`, `decrypt (encrypt p k) k'` fails with
`DecryptFailure`.  The fresh 12-byte nonce and salt drawn by `encrypt` are
universally quantified. -/
theorem claim_C1 (p : Bytes) (k k' : MasterKey) (n s : Bytes)
    (hk : k.key.length = 32) (hk' : k'.key.length = 32) (hn : n.length = 12)
    (hne : k' ≠ k) :
    (Crypto.encrypt p k n s).bindR (fun ev => Crypto.decrypt ev k) = .ok p ∧
    (Crypto.encrypt p k n s).bindR (fun ev => Crypto.decrypt ev k') =
      .err .DecryptFailure :=
  ⟨encrypt_decrypt_roundtrip p k n s hk hn,
   encrypt_decrypt_wrong_key p k k' n s hk hk' hn hne⟩

/-- Witness for C1 at concrete inputs. -/
theorem claim_C1_witness :
    (Crypto.encrypt [1, 2, 3] ⟨List.replicate 32 0⟩ (List.replicate 12 0)
        (List.replicate 32 7)).bindR
      (fun ev => Crypto.decrypt ev ⟨List.replicate 32 0⟩) = .ok [1, 2, 3] ∧
    (Crypto.encrypt [1, 2, 3] ⟨List.replicate 32 0⟩ (List.replicate 12 0)
        (List.replicate 32 7)).bindR
      (fun ev => Crypto.decrypt ev ⟨List.replicate 32 1⟩) =
      .err .DecryptFailure :=
  claim_C1 [1, 2, 3] ⟨List.replicate 32 0⟩ ⟨List.replicate 32 1⟩
    (List.replicate 12 0) (List.replicate 32 7)
    (by decide) (by decide) (by decide) (by decide)

/-- **C10.** `Crypto::decrypt` is panic-free exactly under the precondition
that the key is 32 bytes and the nonce 12 bytes; for every `EncryptedValue`
whose nonce is not 12 bytes (with a well-formed 32-byte key, so that
`Key::from_slice` is passed) it panics via `Nonce::from_slice` instead of
returning a `DecryptFailure`; and `decrypt_master_key_from_session` behaves
the same way. -/
theorem claim_C10 :
    (∀ (ev : EncryptedValue) (k : MasterKey), k.key.length = 32 →
       ev.nonce.length = 12 → Crypto.decrypt ev k ≠ .panic) ∧
    (∀ (ev : EncryptedValue) (k : MasterKey), k.key.length = 32 →
       ev.nonce.length ≠ 12 → Crypto.decrypt ev k = .panic) ∧
    (∀ (ct n sk : Bytes), sk.length = 32 → n.length = 12 →
       Crypto.decryptMasterKeyFromSession ct n sk ≠ .panic) ∧
    (∀ (ct n sk : Bytes), sk.length = 32 → n.length ≠ 12 →
       Crypto.decryptMasterKeyFromSession ct n sk = .panic) := by
  refine ⟨?_, ?_, ?_, ?_⟩
  · intro ev k hk hn
    rcases haead : aeadDecrypt k.key ev.nonce ev.ciphertext with _ | p <;>
      simp [Crypto.decrypt, hk, hn, haead]
  · intro ev k hk hn
    simp [Crypto.decrypt, hk, hn]
  · intro ct n sk hk hn
    rcases haead : aeadDecrypt sk n ct with _ | p <;>
      simp [Crypto.decryptMasterKeyFromSession, hk, hn, haead]
  · intro ct n sk hk hn
    simp [Crypto.decryptMasterKeyFromSession, hk, hn]

/-- Witness for C10 at concrete inputs: a 3-byte (truncated) nonce makes
both decryption entry points panic, while a 12-byte nonce does not. -/
theorem claim_C10_witness :
    Crypto.decrypt ⟨[0, 1, 2], [9, 9], []⟩ ⟨List.replicate 32 0⟩ = .panic ∧
    Crypto.decryptMasterKeyFromSession [9, 9] [0, 1, 2]
      (List.replicate 32 0) = .panic ∧
    Crypto.decrypt ⟨List.replicate 12 0, [9, 9], []⟩
      ⟨List.replicate 32 0⟩ ≠ .panic :=
  ⟨claim_C10.2.1 ⟨[0, 1, 2], [9, 9], []⟩ ⟨List.replicate 32 0⟩
      (by decide) (by decide),
   claim_C10.2.2.2 [9, 9] [0, 1, 2] (List.replicate 32 0)
      (by decide) (by decide),
   claim_C10.1 ⟨List.replicate 12 0, [9, 9], []⟩ ⟨List.replicate 32 0⟩
      (by decide) (by decide)⟩

/-! ## Password generation (`crypto.rs` lines 96–136) -/

/-- `types.rs` lines 208–217, `GenerateOptions`.  The custom charset is kept
as a list of characters. -/
structure GenerateOptions where
  length : Nat
  useUppercase : Bool
  useLowercase : Bool
  useNumbers : Bool
  useSymbols : Bool
  excludeAmbiguous : Bool
  customCharset : Option (List Char)
  deriving DecidableEq, Repr

def lowercaseChars : List Char := "abcdefghijklmnopqrstuvwxyz".toList

def uppercaseChars : List Char := "ABCDEFGHIJKLMNOPQRSTUVWXYZ".toList

def digitChars : List Char := "0123456789".toList

def symbolChars : List Char := "!@#$%^&*()_+-=[]\x7b\x7d|;:,.<>?".toList

/-- The exact ambiguous set removed by `generate_password`. -/
def ambiguousChars : List Char := ['0', 'O', 'o', 'l', '1', 'I']

/-- The alphabet of `rand::distributions::Alphanumeric` (A–Z, a–z, 0–9),
used by the empty-charset fallback. -/
def alphanumericChars : List Char := uppercaseChars ++ lowercaseChars ++ digitChars

/-- Charset construction of `generate_password`: a custom charset is used
verbatim; otherwise the enabled classes are concatenated in source order and
the ambiguous characters are removed only when `exclude_ambiguous` is set. -/
def buildCharset (o : GenerateOptions) : List Char :=
  match o.customCharset with
  | some custom => custom
  | none =>
      let cs :=
        (if o.useLowercase then lowercaseChars else []) ++
        ((if o.useUppercase then uppercaseChars else []) ++
         ((if o.useNumbers then digitChars else []) ++
          (if o.useSymbols then symbolChars else [])))
      if o.excludeAmbiguous then cs.filter (fun c => !ambiguousChars.contains c)
      else cs

/-- One `rng.gen_range(0..cs.length)` indexing step; the raw random value is
reduced modulo the charset size to model the in-range contract of
`gen_range`. -/
def sampleChar (cs : List Char) (r : Nat) : Char :=
  cs.getD (r % cs.length) 'a'

theorem sampleChar_mem {cs : List Char} (h : cs ≠ []) (r : Nat) :
    sampleChar cs r ∈ cs := by
  have hlen : 0 < cs.length := List.length_pos.2 h
  have hlt : r % cs.length < cs.length := Nat.mod_lt _ hlen
  rw [sampleChar, List.getD_eq_getElem cs 'a' hlt]
  exact List.getElem_mem hlt

/-- `crypto.rs` lines 96–136, `Crypto::generate_password`.  The RNG is an
explicit stream `rand`, one draw per output position. -/
def Crypto.generatePassword (o : GenerateOptions) (rand : Nat → Nat) :
    List Char :=
  let charset := buildCharset o
  if charset.isEmpty then
    (List.range o.length).map (fun i => sampleChar alphanumericChars (rand i))
  else
    (List.range o.length).map (fun i => sampleChar charset (rand i))

theorem generatePassword_length (o : GenerateOptions) (rand : Nat → Nat) :
    (Crypto.generatePassword o rand).length = o.length := by
  rw [Crypto.generatePassword]
  split <;> simp

theorem mem_generatePassword {o : GenerateOptions} {rand : Nat → Nat}
    {c : Char} (hc : c ∈ Crypto.generatePassword o rand) :
    (buildCharset o = [] ∧ c ∈ alphanumericChars) ∨
    (buildCharset o ≠ [] ∧ c ∈ buildCharset o) := by
  rw [Crypto.generatePassword] at hc
  by_cases hemp : buildCharset o = []
  · left
    refine ⟨hemp, ?_⟩
    simp only [hemp, List.isEmpty_nil, if_true, List.mem_map] at hc
    obtain ⟨i, -, hi⟩ := hc
    rw [← hi]
    exact sampleChar_mem (by decide) _
  · right
    refine ⟨hemp, ?_⟩
    rw [if_neg (by simpa [List.isEmpty_iff] using hemp)] at hc
    simp only [List.mem_map] at hc
    obtain ⟨i, -, hi⟩ := hc
    rw [← hi]
    exact sampleChar_mem hemp _

/-- With no custom charset, the ambiguity filter leaves at least one
character as soon as one class is enabled. -/
theorem buildCharset_ne_nil_of_class {o : GenerateOptions}
    (hcustom : o.customCharset = none)
    (hclass : o.useLowercase = true ∨ o.useUppercase = true ∨
      o.useNumbers = true ∨ o.useSymbols = true) :
    buildCharset o ≠ [] := by
  rw [buildCharset, hcustom]
  have hx : ∃ c,
      c ∈ (if o.useLowercase = true then lowercaseChars else []) ++
        ((if o.useUppercase = true then uppercaseChars else []) ++
         ((if o.useNumbers = true then digitChars else []) ++
          (if o.useSymbols = true then symbolChars else []))) ∧
      (!ambiguousChars.contains c) = true := by
    rcases hclass with h | h | h | h
    · refine ⟨'a', ?_, by decide⟩
      simp only [h, if_true]
      exact List.mem_append_left _ (by decide)
    · refine ⟨'A', ?_, by decide⟩
      simp only [h, if_true]
      exact List.mem_append_right _ (List.mem_append_left _ (by decide))
    · refine ⟨'2', ?_, by decide⟩
      simp only [h, if_true]
      exact List.mem_append_right _ (List.mem_append_right _
        (List.mem_append_left _ (by decide)))
    · refine ⟨'!', ?_, by decide⟩
      simp only [h, if_true]
      exact List.mem_append_right _ (List.mem_append_right _
        (List.mem_append_right _ (by decide)))
  obtain ⟨c, hc, hcamb⟩ := hx
  intro hnil
  rcases hexcl : o.excludeAmbiguous with _ | _ <;> rw [hexcl] at hnil
  · simp only [if_neg Bool.false_ne_true] at hnil
    rw [hnil] at hc
    exact List.not_mem_nil c hc
  · simp only [if_true] at hnil
    have : c ∈ ([] : List Char) := by
      rw [← hnil]
      exact List.mem_filter.2 ⟨hc, hcamb⟩
    exact List.not_mem_nil c this

/-- **C6 counterexample.**  The claim asserts that whenever
`exclude_ambiguous` is set the output contains none of the ambiguous
characters; but a custom charset is used verbatim, bypassing the filter:
with `custom_charset = "0"` and `exclude_ambiguous = true` the output is
`"0"`, which is ambiguous. -/
theorem claim_C6_counterexample :
    Crypto.generatePassword
      { length := 1, useUppercase := true, useLowercase := true,
        useNumbers := true, useSymbols := true, excludeAmbiguous := true,
        customCharset := some ['0'] } (fun _ => 0) = ['0'] ∧
    '0' ∈ ambiguousChars := by
  constructor
  · rfl
  · decide

/-- **C6 (amended).**  `generate_password(opts)` always has length exactly
`opts.length`.  When no custom charset is given: if `exclude_ambiguous` is
set and at least one class is enabled, the output avoids
`{'0','O','o','l','1','I'}`; if exactly one class is enabled, every output
character belongs to that class's alphabet; and if no class is enabled
(empty alphabet) the output falls back to the uniform alphanumeric
alphabet.  (A custom charset is used verbatim, bypassing the ambiguity
filter; the alphanumeric fallback may itself emit ambiguous characters.) -/
theorem claim_C6 (o : GenerateOptions) (rand : Nat → Nat) :
    (Crypto.generatePassword o rand).length = o.length ∧
    (o.customCharset = none → o.excludeAmbiguous = true →
      (o.useLowercase = true ∨ o.useUppercase = true ∨
       o.useNumbers = true ∨ o.useSymbols = true) →
      ∀ c ∈ Crypto.generatePassword o rand, c ∉ ambiguousChars) ∧
    (o.customCharset = none → o.useLowercase = true → o.useUppercase = false →
      o.useNumbers = false → o.useSymbols = false →
      ∀ c ∈ Crypto.generatePassword o rand, c ∈ lowercaseChars) ∧
    (o.customCharset = none → o.useLowercase = false → o.useUppercase = true →
      o.useNumbers = false → o.useSymbols = false →
      ∀ c ∈ Crypto.generatePassword o rand, c ∈ uppercaseChars) ∧
    (o.customCharset = none → o.useLowercase = false → o.useUppercase = false →
      o.useNumbers = true → o.useSymbols = false →
      ∀ c ∈ Crypto.generatePassword o rand, c ∈ digitChars) ∧
    (o.customCharset = none → o.useLowercase = false → o.useUppercase = false →
      o.useNumbers = false → o.useSymbols = true →
      ∀ c ∈ Crypto.generatePassword o rand, c ∈ symbolChars) ∧
    (o.customCharset = none → o.useLowercase = false → o.useUppercase = false →
      o.useNumbers = false → o.useSymbols = false →
      ∀ c ∈ Crypto.generatePassword o rand, c ∈ alphanumericChars) := by
  refine ⟨generatePassword_length o rand, ?_, ?_, ?_, ?_, ?_, ?_⟩
  · intro hcust hexcl hclass c hc
    rcases mem_generatePassword hc with ⟨hnil, -⟩ | ⟨-, hmem⟩
    · exact absurd hnil (buildCharset_ne_nil_of_class hcust hclass)
    · rw [buildCharset, hcust] at hmem
      simp only [hexcl, if_true] at hmem
      have := List.of_mem_filter hmem
      simpa using this
  · intro hcust h1 h2 h3 h4 c hc
    rcases mem_generatePassword hc with ⟨hnil, -⟩ | ⟨-, hmem⟩
    · exact absurd hnil (buildCharset_ne_nil_of_class hcust (Or.inl h1))
    · rw [buildCharset, hcust] at hmem
      simp only [h1, h2, h3, h4, if_true, if_false, List.append_nil] at hmem
      rcases hmem' : o.excludeAmbiguous with _ | _ <;> rw [hmem'] at hmem
      · simpa using hmem
      · simp only [if_true] at hmem
        exact List.mem_of_mem_filter hmem
  · intro hcust h1 h2 h3 h4 c hc
    rcases mem_generatePassword hc with ⟨hnil, -⟩ | ⟨-, hmem⟩
    · exact absurd hnil (buildCharset_ne_nil_of_class hcust (Or.inr (Or.inl h2)))
    · rw [buildCharset, hcust] at hmem
      simp only [h1, h2, h3, h4, if_true, if_false, List.append_nil,
        List.nil_append] at hmem
      rcases hmem' : o.excludeAmbiguous with _ | _ <;> rw [hmem'] at hmem
      · simpa using hmem
      · simp only [if_true] at hmem
        exact List.mem_of_mem_filter hmem
  · intro hcust h1 h2 h3 h4 c hc
    rcases mem_generatePassword hc with ⟨hnil, -⟩ | ⟨-, hmem⟩
    · exact absurd hnil
        (buildCharset_ne_nil_of_class hcust (Or.inr (Or.inr (Or.inl h3))))
    · rw [buildCharset, hcust] at hmem
      simp only [h1, h2, h3, h4, if_true, if_false, List.append_nil,
        List.nil_append] at hmem
      rcases hmem' : o.excludeAmbiguous with _ | _ <;> rw [hmem'] at hmem
      · simpa using hmem
      · simp only [if_true] at hmem
        exact List.mem_of_mem_filter hmem
  · intro hcust h1 h2 h3 h4 c hc
    rcases mem_generatePassword hc with ⟨hnil, -⟩ | ⟨-, hmem⟩
    · exact absurd hnil
        (buildCharset_ne_nil_of_class hcust (Or.inr (Or.inr (Or.inr h4))))
    · rw [buildCharset, hcust] at hmem
      simp only [h1, h2, h3, h4, if_true, if_false, List.nil_append] at hmem
      rcases hmem' : o.excludeAmbiguous with _ | _ <;> rw [hmem'] at hmem
      · simpa using hmem
      · simp only [if_true] at hmem
        exact List.mem_of_mem_filter hmem
  · intro hcust h1 h2 h3 h4 c hc
    rcases mem_generatePassword hc with ⟨-, hmem⟩ | ⟨hnil, -⟩
    · exact hmem
    · exfalso
      apply hnil
      rw [buildCharset, hcust]
      simp [h1, h2, h3, h4]

/-- Witness for C6 at concrete options: digits only with
`exclude_ambiguous`, so the output has the requested length, avoids the
ambiguous set, and stays inside the digit alphabet. -/
theorem claim_C6_witness :
    (Crypto.generatePassword
      { length := 4, useUppercase := false, useLowercase := false,
        useNumbers := true, useSymbols := false, excludeAmbiguous := true,
        customCharset := none } (fun i => i)).length = 4 ∧
    (∀ c ∈ Crypto.generatePassword
      { length := 4, useUppercase := false, useLowercase := false,
        useNumbers := true, useSymbols := false, excludeAmbiguous := true,
        customCharset := none } (fun i => i), c ∉ ambiguousChars) ∧
    (∀ c ∈ Crypto.generatePassword
      { length := 4, useUppercase := false, useLowercase := false,
        useNumbers := true, useSymbols := false, excludeAmbiguous := true,
        customCharset := none } (fun i => i), c ∈ digitChars) :=
  ⟨(claim_C6 _ (fun i => i)).1,
   (claim_C6 _ (fun i => i)).2.1 rfl rfl (Or.inr (Or.inr (Or.inl rfl))),
   (claim_C6 _ (fun i => i)).2.2.2.2.1 rfl rfl rfl rfl rfl⟩

/-! ## Filesystem and vault model (`storage.rs`)

The `~/.bunker` tree is modelled structurally: a map of vault names to
vault directories and a map of vault names to session files.  Association
lists keyed by `String` play the role of directories; a real filesystem
never holds two entries of the same name, and lookups return the first
binding. -/

/-- `types.rs` / `storage.rs`: the session record persisted at
`sessions/<vault>.session`.  (The `Session` declaration in `types.rs` lacks
the last three fields, but `storage.rs` constructs and reads them; the
field set used by `storage.rs` is modelled.)  Timestamps are integers
(seconds), uuids are `Nat`s. -/
structure Session where
  id : Nat
  vaultName : String
  createdAt : Int
  expiresAt : Int
  keyHash : String
  encryptedMasterKey : Bytes
  nonce : Bytes
  salt : Bytes
  deriving DecidableEq, Repr

/-- `types.rs` lines 75–82, `EncryptionConfig`. -/
structure EncryptionConfig where
  algorithm : String
  kdf : String
  kdfIterations : Nat
  kdfMemory : Nat
  kdfParallelism : Nat
  deriving DecidableEq, Repr

/-- `types.rs` lines 62–72, `VaultConfig`.  The `Uuid` is modelled as a
`Nat`; `config.id.to_string()` is modelled by `toString`. -/
structure VaultConfig where
  id : Nat
  name : String
  createdAt : Int
  lastModified : Int
  encryption : EncryptionConfig
  gitRemote : Option String
  autoSync : Bool
  autoLockMinutes : Option Nat
  deriving DecidableEq, Repr

/-- A directory subtree: files hold raw bytes, directories hold named
children (names are character lists, see `Str` below). -/
inductive FsTree where
  | file (content : Bytes)
  | dir (children : List (List Char × FsTree))

/-- One vault directory `<base>/vaults/<name>/`: the `.vault` config file
(structured; its JSON codec is a bijection and is elided) and the `store/`
directory (`none` when `store/` does not exist). -/
structure VaultDir where
  config : Option VaultConfig
  store : Option (List (List Char × FsTree))

/-- The parts of `~/.bunker` the core touches. -/
structure FS where
  vaults : List (String × VaultDir)
  sessions : List (String × Session)

/-- First-match association-list lookup (a filesystem path lookup). -/
def getAssoc {κ β : Type} [DecidableEq κ] (k : κ) : List (κ × β) → Option β
  | [] => none
  | (k', v) :: rest => if k' = k then some v else getAssoc k rest

/-- Overwrite-or-create for an association list (an `fs::write`). -/
def setAssoc {κ β : Type} [DecidableEq κ] (k : κ) (v : β) : List (κ × β) →
    List (κ × β)
  | [] => [(k, v)]
  | (k', v') :: rest =>
      if k' = k then (k, v) :: rest else (k', v') :: setAssoc k v rest

/-- File deletion: every binding of the name disappears (an
`fs::remove_file`). -/
def delAssoc {κ β : Type} [DecidableEq κ] (k : κ) (l : List (κ × β)) :
    List (κ × β) :=
  l.filter (fun p => decide (p.1 ≠ k))

@[simp] theorem getAssoc_setAssoc_self {κ β : Type} [DecidableEq κ] (k : κ)
    (v : β) (l : List (κ × β)) : getAssoc k (setAssoc k v l) = some v := by
  induction l with
  | nil => simp [setAssoc, getAssoc]
  | cons hd tl ih =>
      obtain ⟨k', v'⟩ := hd
      by_cases h : k' = k
      · simp [setAssoc, getAssoc, h]
      · simp [setAssoc, getAssoc, h, ih]

@[simp] theorem getAssoc_delAssoc_self {κ β : Type} [DecidableEq κ] (k : κ)
    (l : List (κ × β)) : getAssoc k (delAssoc k l) = none := by
  induction l with
  | nil => simp [delAssoc, getAssoc]
  | cons hd tl ih =>
      obtain ⟨k', v'⟩ := hd
      by_cases h : k' = k
      · simpa [delAssoc, List.filter, h] using ih
      · simpa [delAssoc, List.filter, h, getAssoc] using ih

@[simp] theorem getAssoc_setAssoc_ne {κ β : Type} [DecidableEq κ]
    {k k' : κ} (hne : k' ≠ k) (v : β) (l : List (κ × β)) :
    getAssoc k (setAssoc k' v l) = getAssoc k l := by
  induction l with
  | nil => simp [setAssoc, getAssoc, hne]
  | cons hd tl ih =>
      obtain ⟨k'', v''⟩ := hd
      by_cases h : k'' = k'
      · subst h
        simp [setAssoc, getAssoc, hne]
      · simp [setAssoc, getAssoc, h, ih]

namespace Storage

/-- `chrono::Duration::days(365 * 10)` in seconds. -/
def tenYears : Int := 3650 * 24 * 60 * 60

/-- Helper: `load_config` depends only on the `vaults/` subtree. -/
def loadConfigAux (vaults : List (String × VaultDir)) (vaultName : String) :
    Res VaultConfig :=
  match getAssoc vaultName vaults with
  | none => .err .IoFailure
  | some v =>
      match v.config with
      | none => .err .IoFailure
      | some c => .ok c

/-- `storage.rs` lines 91–96, `Storage::load_config`: read and parse
`.vault`; a missing vault directory or config file is an I/O error. -/
def loadConfig (fs : FS) (vaultName : String) : Res VaultConfig :=
  loadConfigAux fs.vaults vaultName

/-- `storage.rs` lines 286–295, `Storage::store_session`: write the session
file at `sessions/<session.vault_name>.session`. -/
def storeSession (fs : FS) (s : Session) : FS :=
  { fs with sessions := setAssoc s.vaultName s fs.sessions }

/-- `storage.rs` lines 298–326, `Storage::store_master_key_permanently`.
The fresh salt, nonce and session uuid (CSPRNG in the source) and the clock
reading are parameters.  Failure occurs before the single mutation, so an
`err` result implies the filesystem is unchanged. -/
def storeMasterKeyPermanently (fs : FS) (vaultName : String)
    (masterKey : MasterKey) (now : Int) (salt nonce : Bytes) (sid : Nat) :
    Res FS :=
  (loadConfig fs vaultName).bindR fun config =>
    let encryptionKey := Crypto.deriveKey (toString config.id) salt
    (Crypto.encryptMasterKeyForSession masterKey encryptionKey.key
        nonce).bindR fun p =>
      let session : Session :=
        { id := sid, vaultName := vaultName, createdAt := now,
          expiresAt := now + tenYears, keyHash := toString config.id,
          encryptedMasterKey := p.1, nonce := p.2, salt := salt }
      .ok (storeSession fs session)

/-- `storage.rs` lines 367–388, `Storage::load_session`: missing file is
`NoSession`; an expired session is deleted and reported as
`SessionExpired`.  Returns the (possibly mutated) filesystem. -/
def loadSession (fs : FS) (vaultName : String) (now : Int) :
    Res Session × FS :=
  match getAssoc vaultName fs.sessions with
  | none => (.err .NoSession, fs)
  | some s =>
      if s.expiresAt < now then
        (.err .SessionExpired,
         { fs with sessions := delAssoc vaultName fs.sessions })
      else (.ok s, fs)

/-- `storage.rs` lines 329–344, `Storage::load_master_key_permanently`. -/
def loadMasterKeyPermanently (fs : FS) (vaultName : String) (now : Int) :
    Res MasterKey × FS :=
  match loadSession fs vaultName now with
  | (.ok session, fs') =>
      (match loadConfig fs' vaultName with
       | .ok config =>
           let encryptionKey :=
             Crypto.deriveKey (toString config.id) session.salt
           Crypto.decryptMasterKeyFromSession session.encryptedMasterKey
             session.nonce encryptionKey.key
       | .err e => .err e
       | .panic => .panic, fs')
  | (.err e, fs') => (.err e, fs')
  | (.panic, fs') => (.panic, fs')

/-- `storage.rs` lines 391–401, `Storage::clear_session` (the `lock`
command): delete the session file if present. -/
def clearSession (fs : FS) (vaultName : String) : FS :=
  { fs with sessions := delAssoc vaultName fs.sessions }

end Storage

/-- **C4.**  For every master key `mk` and vault whose `.vault` config is
readable, `store_master_key_permanently(mk)` succeeds, a subsequent
`load_master_key_permanently()` (within the 10-year expiry) returns a key
equal to `mk`, and after `clear_session()` (lock) the same call fails with
`NoSession`.  The fresh 12-byte nonce, the salt, the session uuid and the
clock readings are universally quantified. -/
theorem claim_C4 (fs : FS) (vaultName : String) (config : VaultConfig)
    (mk : MasterKey) (now now' : Int) (salt nonce : Bytes) (sid : Nat)
    (hcfg : Storage.loadConfig fs vaultName = .ok config)
    (hn : nonce.length = 12)
    (hnow : now' ≤ now + Storage.tenYears) :
    ∃ fs',
      Storage.storeMasterKeyPermanently fs vaultName mk now salt nonce sid =
        .ok fs' ∧
      (Storage.loadMasterKeyPermanently fs' vaultName now').1 = .ok mk ∧
      (Storage.loadMasterKeyPermanently (Storage.clearSession fs' vaultName)
          vaultName now').1 = .err .NoSession := by
  have hkey : (Crypto.deriveKey (toString config.id) salt).key.length = 32 :=
    Crypto.kdfBytes_length _ _
  have h32 : ¬ ((Crypto.deriveKey (toString config.id) salt).key.length ≠ 32) := by
    simp [hkey]
  have h12 : ¬ (nonce.length ≠ 12) := by simp [hn]
  refine ⟨Storage.storeSession fs
      { id := sid, vaultName := vaultName, createdAt := now,
        expiresAt := now + Storage.tenYears, keyHash := toString config.id,
        encryptedMasterKey :=
          aeadEncrypt (Crypto.deriveKey (toString config.id) salt).key
            nonce mk.key,
        nonce := nonce, salt := salt }, ?_, ?_, ?_⟩
  · simp only [Storage.storeMasterKeyPermanently, hcfg, Res.bindR_ok,
      Crypto.encryptMasterKeyForSession, if_pos hkey]
  · simp only [Storage.loadMasterKeyPermanently, Storage.loadSession,
      Storage.storeSession, getAssoc_setAssoc_self]
    rw [if_neg (by simpa using not_lt.2 hnow)]
    have hcfg' : Storage.loadConfigAux fs.vaults vaultName = .ok config := hcfg
    simp only [Storage.loadConfig, hcfg']
    simp only [Crypto.decryptMasterKeyFromSession, if_neg h32, if_neg h12,
      aeadDecrypt_aeadEncrypt]
  · simp [Storage.loadMasterKeyPermanently, Storage.loadSession,
      Storage.clearSession]

/-- Witness for C4 at a concrete vault, key, and clock. -/
theorem claim_C4_witness :
    ∃ fs',
      Storage.storeMasterKeyPermanently
        ⟨[("v", ⟨some ⟨5, "v", 0, 0, ⟨"chacha20poly1305", "argon2id", 3,
            65536, 2⟩, none, true, some 15⟩, some []⟩)], []⟩
        "v" ⟨List.replicate 32 9⟩ 0 (List.replicate 32 1)
        (List.replicate 12 2) 77 = .ok fs' ∧
      (Storage.loadMasterKeyPermanently fs' "v" 3).1 =
        .ok ⟨List.replicate 32 9⟩ ∧
      (Storage.loadMasterKeyPermanently (Storage.clearSession fs' "v")
          "v" 3).1 = .err .NoSession :=
  claim_C4 _ "v" ⟨5, "v", 0, 0, ⟨"chacha20poly1305", "argon2id", 3, 65536, 2⟩,
      none, true, some 15⟩ ⟨List.replicate 32 9⟩ 0 3 (List.replicate 32 1)
    (List.replicate 12 2) 77 rfl (by decide) (by decide)

/-! ## Path strings (`walk_entries` / `entry_path` key derivation)

Rust `String`s that participate in path manipulation are modelled as
`List Char` (`Str`).  The host is Linux, so `std::path::MAIN_SEPARATOR` is
`'/'` and the separator normalisation in `walk_entries` is the identity. -/

/-- A Rust `String` viewed as its character sequence. -/
abbrev Str := List Char

/-- The characters of the `".json"` pattern/suffix. -/
def jsonExt : Str := ['.', 'j', 's', 'o', 'n']

/-- `str::replace(".json", "")`: scan left to right; on an occurrence of
`".json"` drop it and continue after it, otherwise emit the character.
This is exactly the non-overlapping replace-all of Rust (which
`walk_entries` uses — it does NOT strip only the suffix). -/
def stripJsonAll : Str → Str
  | '.' :: 'j' :: 's' :: 'o' :: 'n' :: rest => stripJsonAll rest
  | c :: rest => c :: stripJsonAll rest
  | [] => []

theorem stripJsonAll_length_le (s : Str) :
    (stripJsonAll s).length ≤ s.length := by
  induction s using stripJsonAll.induct with
  | case1 rest ih =>
      rw [stripJsonAll.eq_1]
      simp only [List.length_cons]
      omega
  | case2 c rest hguard ih =>
      rw [stripJsonAll.eq_2 c rest hguard]
      simp only [List.length_cons]
      omega
  | case3 => simp [stripJsonAll]

/-- Appending `t` whose head is none of `j`,`s`,`o`,`n` cannot create a new
`".json"` occurrence across the boundary (the pattern's only dot is its
first character), so `stripJsonAll` distributes over the append when the
left part is occurrence-free. -/
theorem stripJsonAll_append (s t : Str) (hs : stripJsonAll s = s)
    (ht : ∀ c, t.head? = some c → c ≠ 'j' ∧ c ≠ 's' ∧ c ≠ 'o' ∧ c ≠ 'n') :
    stripJsonAll (s ++ t) = s ++ stripJsonAll t := by
  induction s using stripJsonAll.induct with
  | case1 rest ih =>
      exfalso
      rw [stripJsonAll.eq_1] at hs
      have hle := stripJsonAll_length_le rest
      have hlen := congrArg List.length hs
      simp only [List.length_cons] at hlen
      omega
  | case2 c rest hguard ih =>
      have hs' := hs
      rw [stripJsonAll.eq_2 c rest hguard] at hs'
      have hrest : stripJsonAll rest = rest := by
        simpa using hs'
      have hguard2 : ∀ r1 : Str, c = '.' →
          rest ++ t = 'j' :: 's' :: 'o' :: 'n' :: r1 → False := by
        intro r1 hc heq
        rcases rest with _ | ⟨c1, rest⟩
        · simp only [List.nil_append] at heq
          exact (ht 'j' (by rw [heq]; rfl)).1 rfl
        rcases rest with _ | ⟨c2, rest⟩
        · simp only [List.cons_append, List.nil_append,
            List.cons.injEq] at heq
          exact (ht 's' (by rw [heq.2]; rfl)).2.1 rfl
        rcases rest with _ | ⟨c3, rest⟩
        · simp only [List.cons_append, List.nil_append,
            List.cons.injEq] at heq
          exact (ht 'o' (by rw [heq.2.2]; rfl)).2.2.1 rfl
        rcases rest with _ | ⟨c4, rest⟩
        · simp only [List.cons_append, List.nil_append,
            List.cons.injEq] at heq
          exact (ht 'n' (by rw [heq.2.2.2]; rfl)).2.2.2 rfl
        · simp only [List.cons_append, List.cons.injEq] at heq
          exact hguard rest hc
            (by rw [heq.1, heq.2.1, heq.2.2.1, heq.2.2.2.1])
      rw [List.cons_append, stripJsonAll.eq_2 c (rest ++ t) hguard2,
        ih hrest, List.cons_append]
  | case3 =>
      simp

theorem stripJsonAll_jsonExt : stripJsonAll jsonExt = [] := rfl

/-- Stripping after appending the `".json"` suffix to an occurrence-free
string recovers the string. -/
theorem stripJsonAll_append_jsonExt (s : Str) (hs : stripJsonAll s = s) :
    stripJsonAll (s ++ jsonExt) = s := by
  rw [stripJsonAll_append s jsonExt hs ?_]
  · rw [stripJsonAll_jsonExt, List.append_nil]
  · intro c hc
    simp only [jsonExt, List.head?_cons, Option.some.injEq] at hc
    subst hc
    refine ⟨by decide, by decide, by decide, by decide⟩

/-- `Path::to_string_lossy` on a relative path: components joined by the
(Linux) separator. -/
def joinSlash : List Str → Str
  | [] => []
  | [p] => p
  | p :: q :: rest => p ++ '/' :: joinSlash (q :: rest)

/-- Splitting a path string into its components at `'/'` (how the OS
resolves the path string built by `entry_path`). -/
def splitSlash : Str → List Str
  | [] => [[]]
  | c :: rest =>
      match splitSlash rest with
      | [] => [[]]
      | p :: ps => if c = '/' then [] :: p :: ps else (c :: p) :: ps

theorem splitSlash_ne_nil (s : Str) : splitSlash s ≠ [] := by
  induction s with
  | nil => simp [splitSlash]
  | cons c rest ih =>
      rcases h : splitSlash rest with _ | ⟨p, ps⟩
      · exact absurd h ih
      · by_cases hc : c = '/' <;> simp [splitSlash, h, hc]

theorem joinSlash_cons_head (c : Char) (p : Str) (ps : List Str) :
    joinSlash ((c :: p) :: ps) = c :: joinSlash (p :: ps) := by
  cases ps <;> simp [joinSlash]

theorem joinSlash_splitSlash (s : Str) : joinSlash (splitSlash s) = s := by
  induction s with
  | nil => rfl
  | cons c rest ih =>
      rcases h : splitSlash rest with _ | ⟨p, ps⟩
      · exact absurd h (splitSlash_ne_nil rest)
      · rw [h] at ih
        by_cases hc : c = '/'
        · subst hc
          simp only [splitSlash, h, if_pos]
          rw [show joinSlash ([] :: p :: ps) = [] ++ '/' :: joinSlash (p :: ps)
              from rfl]
          rw [ih]
          rfl
        · simp only [splitSlash, h, if_neg hc]
          rw [joinSlash_cons_head, ih]

theorem splitSlash_no_slash (p : Str) (h : '/' ∉ p) : splitSlash p = [p] := by
  induction p with
  | nil => rfl
  | cons c rest ih =>
      have hc : ¬ c = '/' := fun hc => h (hc ▸ List.mem_cons_self c rest)
      simp only [splitSlash, ih (fun hm => h (List.mem_cons_of_mem c hm)),
        if_neg hc]

theorem splitSlash_append_slash (p : Str) (t : Str) (h : '/' ∉ p) :
    splitSlash (p ++ '/' :: t) = p :: splitSlash t := by
  induction p with
  | nil =>
      rcases hs : splitSlash t with _ | ⟨q, qs⟩
      · exact absurd hs (splitSlash_ne_nil t)
      · simp only [List.nil_append, splitSlash, hs, if_pos]
  | cons c rest ih =>
      have hc : ¬ c = '/' := fun hc => h (hc ▸ List.mem_cons_self c rest)
      have ih' := ih (fun hm => h (List.mem_cons_of_mem c hm))
      simp only [List.cons_append, splitSlash, List.append_eq, ih',
        if_neg hc]

theorem splitSlash_joinSlash (ps : List Str) (hne : ps ≠ [])
    (h : ∀ p ∈ ps, '/' ∉ p) : splitSlash (joinSlash ps) = ps := by
  induction ps with
  | nil => exact absurd rfl hne
  | cons p rest ih =>
      rcases rest with _ | ⟨q, rest⟩
      · exact splitSlash_no_slash p (h p (List.mem_cons_self p []))
      · rw [show joinSlash (p :: q :: rest) = p ++ '/' :: joinSlash (q :: rest)
            from rfl]
        rw [splitSlash_append_slash p _ (h p (List.mem_cons_self p _))]
        rw [ih (by simp) (fun x hx => h x (List.mem_cons_of_mem p hx))]

/-- Appending a suffix without `'/'` extends the last component of a
join. -/
theorem joinSlash_append_last (ps : List Str) (x t : Str) :
    joinSlash (ps ++ [x ++ t]) = joinSlash (ps ++ [x]) ++ t := by
  induction ps with
  | nil => rfl
  | cons p rest ih =>
      rcases rest with _ | ⟨q, rest⟩
      · rw [show ([p] ++ [x ++ t]) = p :: [x ++ t] from rfl,
          show ([p] ++ [x]) = p :: [x] from rfl]
        simp [joinSlash]
      · rw [show ((p :: q :: rest) ++ [x ++ t]) =
            p :: ((q :: rest) ++ [x ++ t]) from rfl,
          show ((p :: q :: rest) ++ [x]) = p :: ((q :: rest) ++ [x]) from rfl]
        rw [show joinSlash (p :: (q :: rest ++ [x ++ t])) =
            p ++ '/' :: joinSlash (q :: rest ++ [x ++ t]) by
          cases rest <;> rfl]
        rw [show joinSlash (p :: (q :: rest ++ [x])) =
            p ++ '/' :: joinSlash (q :: rest ++ [x]) by
          cases rest <;> rfl]
        rw [ih]
        simp

/-- `Path::extension() == Some("json")`: the file name has a `'.'` that is
not its leading character, and the part after the last `'.'` is exactly
`json`. -/
def extIsJson (nm : Str) : Bool :=
  let extRev := nm.reverse.takeWhile (fun c => c ≠ '.')
  decide (extRev.length + 1 < nm.length) &&
    (extRev.reverse == ['j', 's', 'o', 'n'])

/-- A file name of the shape `stem ++ ".json"` with a nonempty stem has
extension `json`. -/
theorem extIsJson_stem (stem : Str) (h : stem ≠ []) :
    extIsJson (stem ++ jsonExt) = true := by
  have hrev : (stem ++ jsonExt).reverse =
      'n' :: 'o' :: 's' :: 'j' :: '.' :: stem.reverse := by
    rw [List.reverse_append]
    rfl
  have htw : (stem ++ jsonExt).reverse.takeWhile (fun c => c ≠ '.') =
      ['n', 'o', 's', 'j'] := by
    rw [hrev]
    simp [List.takeWhile_cons]
  rw [extIsJson]
  simp only [htw]
  have hlen : (stem ++ jsonExt).length = stem.length + 5 := by
    simp [jsonExt]
  have hpos : 0 < stem.length := List.length_pos.2 h
  simp [hlen]
  omega

/-! ## Store tree traversal (`storage.rs` lines 174–204) -/

/-- The children list of a directory. -/
abbrev Dir := List (Str × FsTree)

mutual

/-- All files below a tree node, as (relative component path, content). -/
def filesOfTree : FsTree → List (List Str × Bytes)
  | .file c => [([], c)]
  | .dir d => filesOfDir d

/-- All files below a directory, in child order. -/
def filesOfDir : Dir → List (List Str × Bytes)
  | [] => []
  | (nm, t) :: rest =>
      (filesOfTree t).map (fun pc => (nm :: pc.1, pc.2)) ++ filesOfDir rest

end

theorem mem_filesOfDir_ne_nil (d : Dir) (pc : List Str × Bytes)
    (h : pc ∈ filesOfDir d) : pc.1 ≠ [] := by
  induction d with
  | nil => simp [filesOfDir] at h
  | cons hd rest ih =>
      obtain ⟨nm, t⟩ := hd
      rw [filesOfDir] at h
      rcases List.mem_append.1 h with h1 | h2
      · obtain ⟨q, -, hq⟩ := List.mem_map.1 h1
        rw [← hq]
        simp
      · exact ih h2

/-- `storage.rs` lines 187–204, `Storage::walk_entries`: recursive
directory walk collecting, for each file whose extension is `json`, the
string `relative.replace(".json", "").replace(MAIN_SEPARATOR, "/")`
(the separator replace is the identity on Linux). -/
def walkDir (pre : List Str) : Dir → List Str
  | [] => []
  | (nm, .dir d') :: rest => walkDir (pre ++ [nm]) d' ++ walkDir pre rest
  | (nm, .file _) :: rest =>
      (if extIsJson nm then [stripJsonAll (joinSlash (pre ++ [nm]))]
       else []) ++ walkDir pre rest

/-- The walk visits exactly the json files of the flattened tree, in
traversal order. -/
theorem walkDir_eq (pre : List Str) (d : Dir) :
    walkDir pre d = (filesOfDir d).filterMap (fun pc =>
      if extIsJson (pc.1.getLastD []) then
        some (stripJsonAll (joinSlash (pre ++ pc.1)))
      else none) := by
  induction pre, d using walkDir.induct with
  | case1 pre =>
      rw [walkDir, filesOfDir]
      rfl
  | case2 pre nm d' rest ih1 ih2 =>
      rw [walkDir, filesOfDir, filesOfTree, List.filterMap_append,
        List.filterMap_map, ih1, ih2]
      congr 1
      apply List.filterMap_congr
      intro pc hpc
      have hne : pc.1 ≠ [] := mem_filesOfDir_ne_nil d' pc hpc
      have hlast : (nm :: pc.1).getLastD [] = pc.1.getLastD [] := by
        rw [List.getLastD_cons, List.getLastD_eq_getLast?,
          List.getLastD_eq_getLast?]
        rcases hl : pc.1.getLast? with _ | x
        · exact absurd (List.getLast?_eq_none_iff.1 hl) hne
        · rfl
      have hjoin : pre ++ nm :: pc.1 = (pre ++ [nm]) ++ pc.1 := by
        rw [List.append_cons]
      simp only [Function.comp, hlast, hjoin]
  | case3 pre nm c rest ih =>
      rw [walkDir, filesOfDir, filesOfTree]
      simp only [List.map_cons, List.map_nil, List.singleton_append,
        List.filterMap_cons, List.getLastD_cons, List.getLastD_nil]
      rw [ih]
      split <;> rfl

namespace Storage

/-- `storage.rs` lines 174–184, `Storage::list_entries`: empty when
`store/` is missing, otherwise the walk results sorted (`Vec::sort`
produces the unique sorted permutation, modelled by insertion sort). -/
def listEntries (v : VaultDir) : List Str :=
  match v.store with
  | none => []
  | some d => List.insertionSort (fun a b => a ≤ b) (walkDir [] d)

end Storage

/-- The logical-key derivation the claim describes: strip only the final
`".json"` suffix.  (Refinement definition, following the claim's words.) -/
def stripJsonSfx (s : Str) : Str :=
  if s.drop (s.length - 5) = jsonExt then s.take (s.length - 5) else s

/-- Claim-side list specification: json files of the flattened tree, keys
by suffix-stripping, sorted. -/
def specListC7 (d : Dir) : List Str :=
  List.insertionSort (fun a b => a ≤ b) ((filesOfDir d).filterMap
    (fun pc =>
      if extIsJson (pc.1.getLastD []) then some (stripJsonSfx (joinSlash pc.1))
      else none))

/-- Amended list specification: keys by removing every `".json"`
occurrence from the whole relative path (what the code does). -/
def specListAmended (d : Dir) : List Str :=
  List.insertionSort (fun a b => a ≤ b) ((filesOfDir d).filterMap
    (fun pc =>
      if extIsJson (pc.1.getLastD []) then some (stripJsonAll (joinSlash pc.1))
      else none))

/-- **C7 counterexample.**  A file named `a.json.json` has extension
`json`; the claim says its logical key is `a.json` (suffix strip), but
`walk_entries` uses `str::replace(".json", "")`, which removes every
occurrence and yields `a`. -/
theorem claim_C7_counterexample :
    Storage.listEntries
      ⟨none, some [("a.json.json".toList, .file [])]⟩ = ["a".toList] ∧
    specListC7 [("a.json.json".toList, .file [])] = ["a.json".toList] ∧
    ("a".toList : Str) ≠ "a.json".toList := by
  have he : extIsJson "a.json.json".toList = true := by decide
  have hs : stripJsonAll (joinSlash ([] ++ ["a.json.json".toList])) =
      "a".toList := by decide
  have hwalk : walkDir [] [("a.json.json".toList, .file [])] =
      ["a".toList] := by
    rw [walkDir, walkDir, he, if_pos rfl, hs]
    simp
  have hfiles : filesOfDir [("a.json.json".toList, FsTree.file [])] =
      [(["a.json.json".toList], [])] := by
    rw [filesOfDir, filesOfDir, filesOfTree]
    rfl
  refine ⟨?_, ?_, by decide⟩
  · simp only [Storage.listEntries, hwalk]
    decide
  · rw [specListC7, hfiles]
    decide

/-- **C7 (amended).**  `list_entries()` returns exactly the logical keys of
the files under `store/` whose extension is `json`, sorted
lexicographically, where each logical key is obtained from the relative
file path by removing every occurrence of `".json"` (not only the suffix)
and normalising the host separator to `/` (the identity on Linux). -/
theorem claim_C7 (v : VaultDir) (d : Dir) (h : v.store = some d) :
    Storage.listEntries v = specListAmended d ∧
    List.Sorted (fun a b : Str => a ≤ b) (Storage.listEntries v) := by
  constructor
  · simp only [Storage.listEntries, h, specListAmended]
    rw [walkDir_eq]
    simp
  · simp only [Storage.listEntries, h]
    exact List.sorted_insertionSort _ _

/-- Witness for C7 on a small concrete tree with a nested directory, a
non-json file, and two json files. -/
theorem claim_C7_witness :
    Storage.listEntries
      ⟨none, some [("b.json".toList, .file [1]),
        ("sub".toList, .dir [("a.json".toList, .file [2])]),
        ("x.txt".toList, .file [3])]⟩ =
      specListAmended [("b.json".toList, .file [1]),
        ("sub".toList, .dir [("a.json".toList, .file [2])]),
        ("x.txt".toList, .file [3])] ∧
    List.Sorted (fun a b : Str => a ≤ b) (Storage.listEntries
      ⟨none, some [("b.json".toList, .file [1]),
        ("sub".toList, .dir [("a.json".toList, .file [2])]),
        ("x.txt".toList, .file [3])]⟩) :=
  claim_C7 _ _ rfl

/-! ## Entries and their serde codec

`serde_json` (de)serialization of entries is modelled by an injective
byte-level codec with a verified decoder: only the round-trip property of
serde is relied on, not the concrete JSON syntax. -/

/-- `types.rs` lines 41–53, `EntryType`. -/
inductive EntryType where
  | password
  | note
  | card
  | identity
  | secureFile
  | apiKey
  | sshKey
  | database
  | custom (s : Str)
  deriving DecidableEq, Repr

/-- `types.rs` lines 28–38, `EntryMetadata` (the custom-field map is an
association list). -/
structure EntryMetadata where
  entryType : EntryType
  tags : List Str
  notes : Option Str
  url : Option Str
  username : Option Str
  customFields : List (Str × Str)
  expiresAt : Option Int
  autoType : Option Str
  deriving DecidableEq, Repr

/-- `types.rs` lines 8–17, `Entry`. -/
structure Entry where
  id : Nat
  key : Str
  value : EncryptedValue
  metadata : EntryMetadata
  createdAt : Int
  updatedAt : Int
  accessedAt : Option Int
  deriving DecidableEq, Repr

/-! Codec combinators. -/

def encNat (n : Nat) : Bytes := [n]

def decNat : Bytes → Option (Nat × Bytes)
  | [] => none
  | n :: r => some (n, r)

def encInt (i : Int) : Bytes := [i.toNat, (-i).toNat]

def decInt : Bytes → Option (Int × Bytes)
  | a :: b :: r => some ((a : Int) - (b : Int), r)
  | _ => none

def encBytesLP (b : Bytes) : Bytes := b.length :: b

def decBytesLP : Bytes → Option (Bytes × Bytes)
  | [] => none
  | n :: r => some (r.take n, r.drop n)

def encChars (s : Str) : Bytes := s.length :: s.map Char.toNat

def decChars : Bytes → Option (Str × Bytes)
  | [] => none
  | n :: r => some ((r.take n).map Char.ofNat, r.drop n)

def encOpt {α : Type} (enc : α → Bytes) : Option α → Bytes
  | none => [0]
  | some a => 1 :: enc a

def decOpt {α : Type} (dec : Bytes → Option (α × Bytes)) :
    Bytes → Option (Option α × Bytes)
  | 0 :: r => some (none, r)
  | 1 :: r => (dec r).map (fun p => (some p.1, p.2))
  | _ => none

def encListC {α : Type} (enc : α → Bytes) (l : List α) : Bytes :=
  l.length :: l.flatMap enc

def decListN {α : Type} (dec : Bytes → Option (α × Bytes)) :
    Nat → Bytes → Option (List α × Bytes)
  | 0, r => some ([], r)
  | n + 1, r =>
      (dec r).bind fun p =>
        (decListN dec n p.2).map fun q => (p.1 :: q.1, q.2)

def decListC {α : Type} (dec : Bytes → Option (α × Bytes)) :
    Bytes → Option (List α × Bytes)
  | [] => none
  | n :: r => decListN dec n r

def encPairC {α β : Type} (e1 : α → Bytes) (e2 : β → Bytes) (p : α × β) :
    Bytes := e1 p.1 ++ e2 p.2

def decPairC {α β : Type} (d1 : Bytes → Option (α × Bytes))
    (d2 : Bytes → Option (β × Bytes)) (b : Bytes) :
    Option ((α × β) × Bytes) :=
  (d1 b).bind fun p => (d2 p.2).map fun q => ((p.1, q.1), q.2)

@[simp] theorem decNat_enc (n : Nat) (r : Bytes) :
    decNat (encNat n ++ r) = some (n, r) := rfl

@[simp] theorem decInt_enc (i : Int) (r : Bytes) :
    decInt (encInt i ++ r) = some (i, r) := by
  simp only [encInt, List.cons_append, List.nil_append, decInt,
    Option.some.injEq, Prod.mk.injEq]
  exact ⟨by omega, trivial⟩

@[simp] theorem decBytesLP_enc (b : Bytes) (r : Bytes) :
    decBytesLP (encBytesLP b ++ r) = some (b, r) := by
  simp [encBytesLP, decBytesLP, List.take_left, List.drop_left]

@[simp] theorem decChars_enc (s : Str) (r : Bytes) :
    decChars (encChars s ++ r) = some (s, r) := by
  simp only [encChars, List.cons_append, decChars, Option.some.injEq,
    Prod.mk.injEq]
  constructor
  · rw [show s.length = (s.map Char.toNat).length by simp,
      List.take_left, List.map_map]
    have hco : Char.ofNat ∘ Char.toNat = id := funext Char.ofNat_toNat
    rw [hco, List.map_id]
  · rw [show s.length = (s.map Char.toNat).length by simp, List.drop_left]

@[simp] theorem decOpt_enc {α : Type} (dec : Bytes → Option (α × Bytes))
    (enc : α → Bytes) (h : ∀ a r, dec (enc a ++ r) = some (a, r))
    (o : Option α) (r : Bytes) :
    decOpt dec (encOpt enc o ++ r) = some (o, r) := by
  cases o with
  | none => rfl
  | some a => simp [encOpt, decOpt, h a r]

theorem decListN_enc {α : Type} {dec : Bytes → Option (α × Bytes)}
    {enc : α → Bytes} (h : ∀ a r, dec (enc a ++ r) = some (a, r))
    (l : List α) (r : Bytes) :
    decListN dec l.length (l.flatMap enc ++ r) = some (l, r) := by
  induction l with
  | nil => rfl
  | cons a tl ih =>
      rw [List.flatMap_cons, List.length_cons, List.append_assoc, decListN,
        h a _]
      simp [ih]

@[simp] theorem decListC_enc {α : Type} {dec : Bytes → Option (α × Bytes)}
    {enc : α → Bytes} (h : ∀ a r, dec (enc a ++ r) = some (a, r))
    (l : List α) (r : Bytes) :
    decListC dec (encListC enc l ++ r) = some (l, r) := by
  rw [encListC, List.cons_append, decListC]
  exact decListN_enc h l r

@[simp] theorem decPairC_enc {α β : Type}
    {d1 : Bytes → Option (α × Bytes)} {e1 : α → Bytes}
    {d2 : Bytes → Option (β × Bytes)} {e2 : β → Bytes}
    (h1 : ∀ a r, d1 (e1 a ++ r) = some (a, r))
    (h2 : ∀ b r, d2 (e2 b ++ r) = some (b, r))
    (p : α × β) (r : Bytes) :
    decPairC d1 d2 (encPairC e1 e2 p ++ r) = some (p, r) := by
  rw [encPairC, decPairC, List.append_assoc, h1]
  simp [h2]

/-! Entry-level codec (the serde model for entry files). -/

def encEV (ev : EncryptedValue) : Bytes :=
  encBytesLP ev.nonce ++ encBytesLP ev.ciphertext ++ encBytesLP ev.salt

def decEV (b : Bytes) : Option (EncryptedValue × Bytes) :=
  (decBytesLP b).bind fun p1 =>
    (decBytesLP p1.2).bind fun p2 =>
      (decBytesLP p2.2).map fun p3 =>
        ({ nonce := p1.1, ciphertext := p2.1, salt := p3.1 }, p3.2)

@[simp] theorem decEV_enc (ev : EncryptedValue) (r : Bytes) :
    decEV (encEV ev ++ r) = some (ev, r) := by
  rw [encEV, decEV, List.append_assoc, List.append_assoc, decBytesLP_enc]
  simp

def encEntryType : EntryType → Bytes
  | .password => [0]
  | .note => [1]
  | .card => [2]
  | .identity => [3]
  | .secureFile => [4]
  | .apiKey => [5]
  | .sshKey => [6]
  | .database => [7]
  | .custom s => 8 :: encChars s

def decEntryType : Bytes → Option (EntryType × Bytes)
  | [] => none
  | n :: r =>
      if n = 0 then some (.password, r)
      else if n = 1 then some (.note, r)
      else if n = 2 then some (.card, r)
      else if n = 3 then some (.identity, r)
      else if n = 4 then some (.secureFile, r)
      else if n = 5 then some (.apiKey, r)
      else if n = 6 then some (.sshKey, r)
      else if n = 7 then some (.database, r)
      else if n = 8 then (decChars r).map fun p => (.custom p.1, p.2)
      else none

@[simp] theorem decEntryType_enc (t : EntryType) (r : Bytes) :
    decEntryType (encEntryType t ++ r) = some (t, r) := by
  cases t <;> simp [encEntryType, decEntryType]

def encMeta (m : EntryMetadata) : Bytes :=
  encEntryType m.entryType ++ encListC encChars m.tags ++
    encOpt encChars m.notes ++ encOpt encChars m.url ++
    encOpt encChars m.username ++
    encListC (encPairC encChars encChars) m.customFields ++
    encOpt encInt m.expiresAt ++ encOpt encChars m.autoType

def decMeta (b : Bytes) : Option (EntryMetadata × Bytes) :=
  (decEntryType b).bind fun p1 =>
    (decListC decChars p1.2).bind fun p2 =>
      (decOpt decChars p2.2).bind fun p3 =>
        (decOpt decChars p3.2).bind fun p4 =>
          (decOpt decChars p4.2).bind fun p5 =>
            (decListC (decPairC decChars decChars) p5.2).bind fun p6 =>
              (decOpt decInt p6.2).bind fun p7 =>
                (decOpt decChars p7.2).map fun p8 =>
                  ({ entryType := p1.1, tags := p2.1, notes := p3.1,
                     url := p4.1, username := p5.1, customFields := p6.1,
                     expiresAt := p7.1, autoType := p8.1 }, p8.2)

@[simp] theorem decMeta_enc (m : EntryMetadata) (r : Bytes) :
    decMeta (encMeta m ++ r) = some (m, r) := by
  rw [encMeta, decMeta]
  simp [List.append_assoc,
    decListC_enc (fun a r => decChars_enc a r),
    decOpt_enc decChars encChars (fun a r => decChars_enc a r),
    decListC_enc (fun a r =>
      decPairC_enc (fun x y => decChars_enc x y)
        (fun x y => decChars_enc x y) a r),
    decOpt_enc decInt encInt (fun a r => decInt_enc a r)]

def encEntry (e : Entry) : Bytes :=
  encNat e.id ++ encChars e.key ++ encEV e.value ++ encMeta e.metadata ++
    encInt e.createdAt ++ encInt e.updatedAt ++ encOpt encInt e.accessedAt

def decEntry (b : Bytes) : Option (Entry × Bytes) :=
  (decNat b).bind fun p1 =>
    (decChars p1.2).bind fun p2 =>
      (decEV p2.2).bind fun p3 =>
        (decMeta p3.2).bind fun p4 =>
          (decInt p4.2).bind fun p5 =>
            (decInt p5.2).bind fun p6 =>
              (decOpt decInt p6.2).map fun p7 =>
                ({ id := p1.1, key := p2.1, value := p3.1,
                   metadata := p4.1, createdAt := p5.1, updatedAt := p6.1,
                   accessedAt := p7.1 }, p7.2)

@[simp] theorem decEntry_enc (e : Entry) (r : Bytes) :
    decEntry (encEntry e ++ r) = some (e, r) := by
  rw [encEntry, decEntry]
  simp [List.append_assoc,
    decOpt_enc decInt encInt (fun a r => decInt_enc a r)]

/-- `serde_json::from_str` for a whole entry file: the decoder must consume
every byte. -/
def entryFromBytes (b : Bytes) : Option Entry :=
  match decEntry b with
  | some (e, []) => some e
  | _ => none

/-- `serde_json::from_slice` for a serialized inner `EncryptedValue`. -/
def evFromBytes (b : Bytes) : Option EncryptedValue :=
  match decEV b with
  | some (ev, []) => some ev
  | _ => none

@[simp] theorem entryFromBytes_enc (e : Entry) :
    entryFromBytes (encEntry e) = some e := by
  rw [entryFromBytes, show encEntry e = encEntry e ++ [] by simp,
    decEntry_enc]

@[simp] theorem evFromBytes_enc (ev : EncryptedValue) :
    evFromBytes (encEV ev) = some ev := by
  rw [evFromBytes, show encEV ev = encEV ev ++ [] by simp, decEV_enc]

/-! ## Entry read/write (`storage.rs` lines 107–146, 278–283) -/

/-- Read a file at a component path; `none` for a missing path or a
directory. -/
def getFileT : Dir → List Str → Option Bytes
  | d, [nm] =>
      match getAssoc nm d with
      | some (.file c) => some c
      | _ => none
  | d, nm :: rest =>
      match getAssoc nm d with
      | some (.dir d') => getFileT d' rest
      | _ => none
  | _, [] => none

theorem getFileT_single (d : Dir) (nm : Str) :
    getFileT d [nm] =
      match getAssoc nm d with
      | some (.file c) => some c
      | _ => none := rfl

theorem getFileT_cons (d : Dir) (nm : Str) (q : Str) (qs : List Str) :
    getFileT d (nm :: q :: qs) =
      match getAssoc nm d with
      | some (.dir d') => getFileT d' (q :: qs)
      | _ => none := rfl

/-- Write a file at a component path, creating intermediate directories
(`fs::create_dir_all` + `fs::write`).  A blocking file is replaced by a
directory; that branch is unreachable under the hypotheses used here (in
the source it would surface as an I/O error). -/
def setFileT : Dir → List Str → Bytes → Dir
  | d, [], _ => d
  | d, [nm], c => setAssoc nm (.file c) d
  | d, nm :: rest, c =>
      match getAssoc nm d with
      | some (.dir d') => setAssoc nm (.dir (setFileT d' rest c)) d
      | _ => setAssoc nm (.dir (setFileT [] rest c)) d

theorem setFileT_single (d : Dir) (nm : Str) (c : Bytes) :
    setFileT d [nm] c = setAssoc nm (.file c) d := rfl

theorem setFileT_cons (d : Dir) (nm : Str) (q : Str) (qs : List Str)
    (c : Bytes) :
    setFileT d (nm :: q :: qs) c =
      match getAssoc nm d with
      | some (.dir d') => setAssoc nm (.dir (setFileT d' (q :: qs) c)) d
      | _ => setAssoc nm (.dir (setFileT [] (q :: qs) c)) d := rfl

theorem getFileT_setFileT_self (p : List Str) (d : Dir) (c : Bytes)
    (hp : p ≠ []) : getFileT (setFileT d p c) p = some c := by
  induction p generalizing d with
  | nil => exact absurd rfl hp
  | cons nm rest ih =>
      rcases rest with _ | ⟨q, rest⟩
      · rw [setFileT_single, getFileT_single, getAssoc_setAssoc_self]
      · rw [setFileT_cons, getFileT_cons]
        rcases hna : getAssoc nm d with _ | t
        · simp only [getAssoc_setAssoc_self]
          exact ih _ (List.cons_ne_nil q rest)
        · rcases t with c' | d'
          · simp only [getAssoc_setAssoc_self]
            exact ih _ (List.cons_ne_nil q rest)
          · simp only [getAssoc_setAssoc_self]
            exact ih _ (List.cons_ne_nil q rest)

namespace Storage

/-- `storage.rs` lines 278–283, `Storage::entry_path`, resolved to path
components: `store/` relative components of `<key>.json` (the
`'/' → MAIN_SEPARATOR` replace is the identity on Linux). -/
def entryRel (k : Str) : List Str := splitSlash (k ++ jsonExt)

theorem entryRel_ne_nil (k : Str) : entryRel k ≠ [] :=
  splitSlash_ne_nil _

/-- Read an entry file (used by `load_entry`, `export_vault`,
`search_entries`). -/
def readEntryFile (v : VaultDir) (k : Str) : Option Bytes :=
  match v.store with
  | none => none
  | some d => getFileT d (entryRel k)

/-- `storage.rs` lines 107–128, `Storage::store_entry`: serialize the inner
`EncryptedValue`, encrypt it under the master key (fresh nonce/salt are
parameters), substitute the result as the entry's value, and write the
serialized entry at `entry_path`, creating parent directories. -/
def storeEntry (fs : FS) (vaultName : String) (e : Entry)
    (masterKey : MasterKey) (nonce salt : Bytes) : Res FS :=
  (Crypto.encrypt (encEV e.value) masterKey nonce salt).bindR fun outer =>
    let storedEntry : Entry := { e with value := outer }
    let v := (getAssoc vaultName fs.vaults).getD ⟨none, none⟩
    let d := v.store.getD []
    let v' : VaultDir :=
      { v with store := some (setFileT d (entryRel e.key)
          (encEntry storedEntry)) }
    .ok { fs with vaults := setAssoc vaultName v' fs.vaults }

/-- `storage.rs` lines 131–146, `Storage::load_entry`: read, deserialize,
decrypt the outer value, deserialize the inner `EncryptedValue`, and
substitute it back. -/
def loadEntry (fs : FS) (vaultName : String) (key : Str)
    (masterKey : MasterKey) : Res Entry :=
  match getAssoc vaultName fs.vaults with
  | none => .err .EntryNotFound
  | some v =>
      match readEntryFile v key with
      | none => .err .EntryNotFound
      | some content =>
          match entryFromBytes content with
          | none => .err .SerializationFailure
          | some entry =>
              (Crypto.decrypt entry.value masterKey).bindR fun valueJson =>
                match evFromBytes valueJson with
                | none => .err .SerializationFailure
                | some value => .ok { entry with value := value }

end Storage

/-- **C5.**  For every entry `e` and 32-byte master key, `store_entry(e)`
followed by `load_entry(e.key)` returns an entry equal to `e` — in
particular equal in every field except possibly the value (in fact the
inner `EncryptedValue` is recovered exactly, because `load_entry` unwraps
the fresh outer wrapping that `store_entry` added). -/
theorem claim_C5 (fs : FS) (vaultName : String) (e : Entry)
    (masterKey : MasterKey) (nonce salt : Bytes)
    (hk : masterKey.key.length = 32) (hn : nonce.length = 12) :
    ∃ fs', Storage.storeEntry fs vaultName e masterKey nonce salt = .ok fs' ∧
      Storage.loadEntry fs' vaultName e.key masterKey = .ok e := by
  refine ⟨⟨setAssoc vaultName
      ⟨((getAssoc vaultName fs.vaults).getD ⟨none, none⟩).config,
       some (setFileT
          (((getAssoc vaultName fs.vaults).getD ⟨none, none⟩).store.getD [])
          (Storage.entryRel e.key)
          (encEntry { e with value :=
            ⟨nonce, aeadEncrypt masterKey.key nonce (encEV e.value),
             salt⟩ }))⟩ fs.vaults, fs.sessions⟩, ?_, ?_⟩
  · rw [Storage.storeEntry, Crypto.encrypt, if_pos hk]
    rfl
  · rw [Storage.loadEntry]
    simp only [getAssoc_setAssoc_self]
    rw [Storage.readEntryFile]
    simp only [getFileT_setFileT_self (Storage.entryRel e.key) _ _
      (Storage.entryRel_ne_nil e.key), entryFromBytes_enc]
    rw [Crypto.decrypt]
    rw [if_neg (by simp [hk]), if_neg (by simp [hn])]
    simp [aeadDecrypt_aeadEncrypt]

/-- Witness for C5 at a concrete entry, vault, and key. -/
theorem claim_C5_witness :
    ∃ fs', Storage.storeEntry ⟨[], []⟩ "v"
        ⟨7, "email/gmail".toList, ⟨[1], [2, 3], [4]⟩,
         ⟨.password, ["t".toList], none, none, some "user".toList,
          [("f".toList, "x".toList)], none, none⟩, 10, 11, none⟩
        ⟨List.replicate 32 3⟩ (List.replicate 12 5) (List.replicate 32 6) =
        .ok fs' ∧
      Storage.loadEntry fs' "v" "email/gmail".toList
        ⟨List.replicate 32 3⟩ =
        .ok ⟨7, "email/gmail".toList, ⟨[1], [2, 3], [4]⟩,
         ⟨.password, ["t".toList], none, none, some "user".toList,
          [("f".toList, "x".toList)], none, none⟩, 10, 11, none⟩ :=
  claim_C5 ⟨[], []⟩ "v"
    ⟨7, "email/gmail".toList, ⟨[1], [2, 3], [4]⟩,
     ⟨.password, ["t".toList], none, none, some "user".toList,
      [("f".toList, "x".toList)], none, none⟩, 10, 11, none⟩
    ⟨List.replicate 32 3⟩ (List.replicate 12 5) (List.replicate 32 6)
    (by decide) (by decide)

/-! ## Search (`storage.rs` lines 207–275) -/

/-- `str::to_lowercase`, per character. -/
def toLowerStr (s : Str) : Str := s.map Char.toLower

/-- `str::contains` (substring test). -/
def containsSub (pat : Str) : Str → Bool
  | [] => pat.isPrefixOf []
  | c :: t => pat.isPrefixOf (c :: t) || containsSub pat t

/-- `String::from_utf8` on the decrypted value; UTF-8 validity is not
modelled (an invalid-UTF-8 error would propagate like any other error and
is not exercised by the claims). -/
def bytesToChars (b : Bytes) : Str := b.map Char.ofNat

/-- The seven case-insensitive substring checks of `search_entries`
(logical key, decrypted value, username, notes, url, tags, custom-field
values), combined by the `found_match` flag. -/
def entryMatches (entryKey : Str) (e : Entry) (decStr : Str) (q : Str) :
    Bool :=
  let ql := toLowerStr q
  containsSub ql (toLowerStr entryKey) ||
  containsSub ql (toLowerStr decStr) ||
  (match e.metadata.username with
   | some u => containsSub ql (toLowerStr u)
   | none => false) ||
  (match e.metadata.notes with
   | some n => containsSub ql (toLowerStr n)
   | none => false) ||
  (match e.metadata.url with
   | some u => containsSub ql (toLowerStr u)
   | none => false) ||
  e.metadata.tags.any (fun t => containsSub ql (toLowerStr t)) ||
  e.metadata.customFields.any (fun p => containsSub ql (toLowerStr p.2))

namespace Storage

/-- The per-entry loop of `search_entries`.  `if let Ok(entry) =
self.load_entry(..)` silently skips entries whose load fails; the `?` on
the inner decrypt propagates its failures immediately. -/
def searchLoop (fs : FS) (vaultName : String) (q : Str) (mk : MasterKey) :
    List Str → Res (List (Str × Entry))
  | [] => .ok []
  | k :: rest =>
      match loadEntry fs vaultName k mk with
      | .ok entry =>
          (Crypto.decrypt entry.value mk).bindR fun dv =>
            (searchLoop fs vaultName q mk rest).bindR fun tail =>
              .ok (if entryMatches k entry (bytesToChars dv) q then
                     (k, entry) :: tail
                   else tail)
      | .err _ => searchLoop fs vaultName q mk rest
      | .panic => .panic

/-- `storage.rs` lines 207–275, `Storage::search_entries`. -/
def searchEntries (fs : FS) (vaultName : String) (q : Str)
    (mk : MasterKey) : Res (List (Str × Entry)) :=
  searchLoop fs vaultName q mk
    (listEntries ((getAssoc vaultName fs.vaults).getD ⟨none, none⟩))

end Storage

theorem searchLoop_all_err (fs : FS) (vaultName : String) (q : Str)
    (mk : MasterKey) (ks : List Str)
    (h : ∀ k ∈ ks, ∃ er, Storage.loadEntry fs vaultName k mk = .err er) :
    Storage.searchLoop fs vaultName q mk ks = .ok [] := by
  induction ks with
  | nil => rfl
  | cons k rest ih =>
      obtain ⟨er, he⟩ := h k (List.mem_cons_self k rest)
      rw [Storage.searchLoop, he]
      exact ih (fun x hx => h x (List.mem_cons_of_mem k hx))

/-- The concrete entry, keys and vault used for the C8 scenario. -/
def entryC8 : Entry :=
  ⟨1, "k".toList, ⟨[9], [8], [7]⟩,
   ⟨.password, [], none, none, none, [], none, none⟩, 0, 0, none⟩

def mkGoodC8 : MasterKey := ⟨List.replicate 32 0⟩

def mkBadC8 : MasterKey := ⟨List.replicate 32 1⟩

/-- The vault state after `store_entry(entryC8)` under `mkGoodC8` (see the
first conjunct of the counterexample). -/
def fsC8 : FS :=
  ⟨[("v", ⟨none, some (setFileT [] (Storage.entryRel "k".toList)
      (encEntry { entryC8 with value :=
        ⟨List.replicate 12 0,
         aeadEncrypt mkGoodC8.key (List.replicate 12 0) (encEV entryC8.value),
         List.replicate 32 2⟩ }))⟩)], []⟩

theorem listEntries_fsC8 :
    Storage.listEntries ⟨none, some (setFileT []
      (Storage.entryRel "k".toList)
      (encEntry { entryC8 with value :=
        ⟨List.replicate 12 0,
         aeadEncrypt mkGoodC8.key (List.replicate 12 0) (encEV entryC8.value),
         List.replicate 32 2⟩ }))⟩ = ["k".toList] := by
  have hrel : Storage.entryRel "k".toList = ["k.json".toList] := by decide
  simp only [Storage.listEntries]
  rw [hrel, setFileT_single]
  have he : extIsJson "k.json".toList = true := by decide
  have hs : stripJsonAll (joinSlash ([] ++ ["k.json".toList])) =
      "k".toList := by decide
  rw [show setAssoc "k.json".toList
      (FsTree.file (encEntry { entryC8 with value :=
        ⟨List.replicate 12 0,
         aeadEncrypt mkGoodC8.key (List.replicate 12 0) (encEV entryC8.value),
         List.replicate 32 2⟩ })) [] = [("k.json".toList,
      FsTree.file (encEntry { entryC8 with value :=
        ⟨List.replicate 12 0,
         aeadEncrypt mkGoodC8.key (List.replicate 12 0) (encEV entryC8.value),
         List.replicate 32 2⟩ }))] from rfl]
  rw [walkDir, walkDir, he, if_pos rfl, hs]
  rfl

/-- **C8 counterexample.**  A vault holding one entry stored under
`mkGoodC8`, searched with the different 32-byte key `mkBadC8`: the claim
says `search_entries` fails with `DecryptFailure`, but the `if let Ok`
around `load_entry` swallows the per-entry decrypt failure and the search
returns `Ok []`, silently omitting the undecryptable entry. -/
theorem claim_C8_counterexample :
    Storage.storeEntry ⟨[("v", ⟨none, some []⟩)], []⟩ "v" entryC8 mkGoodC8
      (List.replicate 12 0) (List.replicate 32 2) = .ok fsC8 ∧
    Storage.listEntries ((getAssoc "v" fsC8.vaults).getD ⟨none, none⟩) =
      ["k".toList] ∧
    Storage.loadEntry fsC8 "v" "k".toList mkBadC8 =
      .err .DecryptFailure ∧
    Storage.searchEntries fsC8 "v" "q".toList mkBadC8 = .ok [] := by
  refine ⟨?_, ?_, ?_, ?_⟩
  · rw [Storage.storeEntry, Crypto.encrypt, if_pos (by decide)]
    rfl
  · exact listEntries_fsC8
  · decide
  · rw [Storage.searchEntries,
      show ((getAssoc "v" fsC8.vaults).getD ⟨none, none⟩) =
        ⟨none, some (setFileT [] (Storage.entryRel "k".toList)
          (encEntry { entryC8 with value :=
            ⟨List.replicate 12 0,
             aeadEncrypt mkGoodC8.key (List.replicate 12 0)
               (encEV entryC8.value),
             List.replicate 32 2⟩ }))⟩ from rfl,
      listEntries_fsC8]
    decide

/-- **C8 (amended).**  Per-entry load failures — in particular the
cryptographic failure of decrypting an entry with a wrong master key — are
silently skipped by `search_entries` (the `if let Ok(entry)` at
`storage.rs` line 212); when every entry of the vault fails to load, the
search succeeds with the empty result instead of failing with
`DecryptFailure`.  Only failures of the inner decrypt of an entry whose
load succeeded propagate to the caller. -/
theorem claim_C8 (fs : FS) (vaultName : String) (q : Str) (mk : MasterKey)
    (h : ∀ k ∈ Storage.listEntries
        ((getAssoc vaultName fs.vaults).getD ⟨none, none⟩),
      ∃ er, Storage.loadEntry fs vaultName k mk = .err er) :
    Storage.searchEntries fs vaultName q mk = .ok [] := by
  rw [Storage.searchEntries]
  exact searchLoop_all_err fs vaultName q mk _ h

/-- Witness for C8: the concrete vault of the counterexample searched with
a third key (all-bytes-2), discharging the all-loads-fail hypothesis by
evaluation. -/
theorem claim_C8_witness :
    Storage.searchEntries fsC8 "v" "gmail".toList
      ⟨List.replicate 32 2⟩ = .ok [] :=
  claim_C8 fsC8 "v" "gmail".toList ⟨List.replicate 32 2⟩ (by
    intro k hk
    rw [show ((getAssoc "v" fsC8.vaults).getD ⟨none, none⟩) =
        ⟨none, some (setFileT [] (Storage.entryRel "k".toList)
          (encEntry { entryC8 with value :=
            ⟨List.replicate 12 0,
             aeadEncrypt mkGoodC8.key (List.replicate 12 0)
               (encEV entryC8.value),
             List.replicate 32 2⟩ }))⟩ from rfl,
      listEntries_fsC8] at hk
    rw [List.mem_singleton.1 hk]
    exact ⟨.DecryptFailure, by decide⟩)

/-! ## Vault initialisation (`storage.rs` lines 61–82, `init.rs` 14–20) -/

namespace Storage

/-- `storage.rs` lines 80–82, `Storage::vault_exists`: the vault directory
exists and contains a `.vault` file. -/
def vaultExists (fs : FS) (vaultName : String) : Bool :=
  match getAssoc vaultName fs.vaults with
  | none => false
  | some v => v.config.isSome

/-- `storage.rs` lines 61–77, `Storage::init_vault`: create the vault
directory and `store/` (`create_dir_all` keeps an existing directory), and
write `.vault`.  The optional git initialisation touches only `.git`,
which is not part of the model.  Note the function itself performs no
existence check. -/
def initVault (fs : FS) (vaultName : String) (config : VaultConfig) : FS :=
  let v := (getAssoc vaultName fs.vaults).getD ⟨none, none⟩
  let v' : VaultDir := ⟨some config, some (v.store.getD [])⟩
  { fs with vaults := setAssoc vaultName v' fs.vaults }

/-- `commands/init.rs` lines 14–20 composed with `init_vault`: the init
command refuses to proceed when the vault already exists, before any
mutation. -/
def initCommand (fs : FS) (vaultName : String) (config : VaultConfig) :
    Res Unit × FS :=
  if vaultExists fs vaultName then (.err .VaultExists, fs)
  else (.ok (), initVault fs vaultName config)

end Storage

/-- **C9.**  The init operation fails with `VaultExists` when a `.vault`
file is already present at the vault path, leaving the filesystem (in
particular the existing vault) unchanged; otherwise it succeeds, creating
the `store/` directory and writing the `.vault` config file. -/
theorem claim_C9 (fs : FS) (vaultName : String) (config : VaultConfig) :
    (Storage.vaultExists fs vaultName = true →
      Storage.initCommand fs vaultName config = (.err .VaultExists, fs)) ∧
    (Storage.vaultExists fs vaultName = false →
      (Storage.initCommand fs vaultName config).1 = .ok () ∧
      ∃ v', getAssoc vaultName
          (Storage.initCommand fs vaultName config).2.vaults = some v' ∧
        v'.config = some config ∧ v'.store.isSome = true) := by
  constructor
  · intro h
    rw [Storage.initCommand, if_pos h]
  · intro h
    rw [Storage.initCommand, if_neg (by rw [h]; exact Bool.false_ne_true)]
    refine ⟨rfl, ⟨some config,
      some ((((getAssoc vaultName fs.vaults).getD
        ⟨none, none⟩).store).getD [])⟩, ?_, rfl, rfl⟩
    rw [Storage.initVault]
    exact getAssoc_setAssoc_self _ _ _

/-- Witness for C9: initialising a fresh vault succeeds and writes the
config; re-initialising it fails with `VaultExists` and leaves the
filesystem unchanged. -/
theorem claim_C9_witness :
    (Storage.vaultExists ⟨[], []⟩ "v" = false →
      (Storage.initCommand ⟨[], []⟩ "v"
          ⟨5, "v", 0, 0, ⟨"chacha20poly1305", "argon2id", 3, 65536, 2⟩,
           none, true, some 15⟩).1 = .ok () ∧
      ∃ v', getAssoc "v" (Storage.initCommand ⟨[], []⟩ "v"
          ⟨5, "v", 0, 0, ⟨"chacha20poly1305", "argon2id", 3, 65536, 2⟩,
           none, true, some 15⟩).2.vaults = some v' ∧
        v'.config = some ⟨5, "v", 0, 0,
          ⟨"chacha20poly1305", "argon2id", 3, 65536, 2⟩,
          none, true, some 15⟩ ∧ v'.store.isSome = true) ∧
    (Storage.vaultExists
        ⟨[("v", ⟨some ⟨5, "v", 0, 0,
          ⟨"chacha20poly1305", "argon2id", 3, 65536, 2⟩,
          none, true, some 15⟩, some []⟩)], []⟩ "v" = true →
      Storage.initCommand
        ⟨[("v", ⟨some ⟨5, "v", 0, 0,
          ⟨"chacha20poly1305", "argon2id", 3, 65536, 2⟩,
          none, true, some 15⟩, some []⟩)], []⟩ "v"
        ⟨6, "v", 1, 1, ⟨"chacha20poly1305", "argon2id", 3, 65536, 2⟩,
         none, true, none⟩ =
      (.err .VaultExists,
        ⟨[("v", ⟨some ⟨5, "v", 0, 0,
          ⟨"chacha20poly1305", "argon2id", 3, 65536, 2⟩,
          none, true, some 15⟩, some []⟩)], []⟩)) :=
  ⟨(claim_C9 ⟨[], []⟩ "v" _).2,
   (claim_C9 _ "v" _).1⟩

/-! ## Export envelope (`storage.rs` lines 427–525)

The base64 transport encoding of the envelope's three ciphertext
components and the envelope's outer JSON layer are bijections and are
modelled away: the envelope is kept structurally, with the ciphertext as
raw bytes.  "Flipping a byte of the ciphertext" therefore acts on the
decoded ciphertext, exactly as in the claim. -/

def encLeanStr (s : String) : Bytes := encChars s.toList

def decLeanStr (b : Bytes) : Option (String × Bytes) :=
  (decChars b).map fun p => (String.mk p.1, p.2)

@[simp] theorem decLeanStr_enc (s : String) (r : Bytes) :
    decLeanStr (encLeanStr s ++ r) = some (s, r) := by
  rw [encLeanStr, decLeanStr, decChars_enc]
  rfl

def encBool (b : Bool) : Bytes := [if b then 1 else 0]

def decBool : Bytes → Option (Bool × Bytes)
  | [] => none
  | n :: r =>
      if n = 0 then some (false, r)
      else if n = 1 then some (true, r)
      else none

@[simp] theorem decBool_enc (b : Bool) (r : Bytes) :
    decBool (encBool b ++ r) = some (b, r) := by
  cases b <;> rfl

def encEncCfg (c : EncryptionConfig) : Bytes :=
  encLeanStr c.algorithm ++ encLeanStr c.kdf ++ encNat c.kdfIterations ++
    encNat c.kdfMemory ++ encNat c.kdfParallelism

def decEncCfg (b : Bytes) : Option (EncryptionConfig × Bytes) :=
  (decLeanStr b).bind fun p1 =>
    (decLeanStr p1.2).bind fun p2 =>
      (decNat p2.2).bind fun p3 =>
        (decNat p3.2).bind fun p4 =>
          (decNat p4.2).map fun p5 =>
            (⟨p1.1, p2.1, p3.1, p4.1, p5.1⟩, p5.2)

@[simp] theorem decEncCfg_enc (c : EncryptionConfig) (r : Bytes) :
    decEncCfg (encEncCfg c ++ r) = some (c, r) := by
  rw [encEncCfg, decEncCfg]
  simp [List.append_assoc]

def encVaultConfig (c : VaultConfig) : Bytes :=
  encNat c.id ++ encLeanStr c.name ++ encInt c.createdAt ++
    encInt c.lastModified ++ encEncCfg c.encryption ++
    encOpt encLeanStr c.gitRemote ++ encBool c.autoSync ++
    encOpt encNat c.autoLockMinutes

def decVaultConfig (b : Bytes) : Option (VaultConfig × Bytes) :=
  (decNat b).bind fun p1 =>
    (decLeanStr p1.2).bind fun p2 =>
      (decInt p2.2).bind fun p3 =>
        (decInt p3.2).bind fun p4 =>
          (decEncCfg p4.2).bind fun p5 =>
            (decOpt decLeanStr p5.2).bind fun p6 =>
              (decBool p6.2).bind fun p7 =>
                (decOpt decNat p7.2).map fun p8 =>
                  (⟨p1.1, p2.1, p3.1, p4.1, p5.1, p6.1, p7.1, p8.1⟩, p8.2)

@[simp] theorem decVaultConfig_enc (c : VaultConfig) (r : Bytes) :
    decVaultConfig (encVaultConfig c ++ r) = some (c, r) := by
  rw [encVaultConfig, decVaultConfig]
  simp [List.append_assoc,
    decOpt_enc decLeanStr encLeanStr (fun a r => decLeanStr_enc a r),
    decOpt_enc decNat encNat (fun a r => decNat_enc a r)]

/-- The inner plaintext of the export envelope (§3): version, vault
config, `{logical key → raw entry file bytes}`, export timestamp. -/
structure ExportData where
  version : String
  vaultConfig : VaultConfig
  entries : List (Str × Bytes)
  exportedAt : Int
  deriving DecidableEq, Repr

def encExportData (x : ExportData) : Bytes :=
  encLeanStr x.version ++ encVaultConfig x.vaultConfig ++
    encListC (encPairC encChars encBytesLP) x.entries ++
    encInt x.exportedAt

def decExportData (b : Bytes) : Option (ExportData × Bytes) :=
  (decLeanStr b).bind fun p1 =>
    (decVaultConfig p1.2).bind fun p2 =>
      (decListC (decPairC decChars decBytesLP) p2.2).bind fun p3 =>
        (decInt p3.2).map fun p4 =>
          (⟨p1.1, p2.1, p3.1, p4.1⟩, p4.2)

@[simp] theorem decExportData_enc (x : ExportData) (r : Bytes) :
    decExportData (encExportData x ++ r) = some (x, r) := by
  rw [encExportData, decExportData]
  simp [List.append_assoc,
    decListC_enc (fun a r =>
      decPairC_enc (fun p q => decChars_enc p q)
        (fun p q => decBytesLP_enc p q) a r)]

def exportDataFromBytes (b : Bytes) : Option ExportData :=
  match decExportData b with
  | some (x, []) => some x
  | _ => none

@[simp] theorem exportDataFromBytes_enc (x : ExportData) :
    exportDataFromBytes (encExportData x) = some x := by
  rw [exportDataFromBytes, show encExportData x = encExportData x ++ []
    by simp, decExportData_enc]

/-- The export envelope (§3 / §6): magic flag, version, (base64-decoded)
ciphertext, nonce and salt, and the hex checksum of the ciphertext. -/
structure ExportEnvelope where
  bunkerExport : Bool
  version : String
  encryptedData : Bytes
  nonce : Bytes
  salt : Bytes
  checksum : Bytes
  deriving DecidableEq, Repr

namespace Storage

/-- The entry-collection loop of `export_vault` (lines 432–436): read each
listed entry's file verbatim into the `vault_data` map (`HashMap::insert`
replaces an existing binding). -/
def collectEntriesAux (v : VaultDir) (acc : List (Str × Bytes)) :
    List Str → Res (List (Str × Bytes))
  | [] => .ok acc
  | k :: rest =>
      match readEntryFile v k with
      | none => .err .IoFailure
      | some c => collectEntriesAux v (setAssoc k c acc) rest

/-- `storage.rs` lines 427–463, `Storage::export_vault`.  The fresh salt,
nonce (and the unused inner salt of `encrypt`) and the clock reading are
parameters. -/
def exportVault (fs : FS) (vaultName : String) (password : String)
    (salt nonce innerSalt : Bytes) (exportedAt : Int) :
    Res ExportEnvelope :=
  let v := (getAssoc vaultName fs.vaults).getD ⟨none, none⟩
  (collectEntriesAux v [] (listEntries v)).bindR fun vaultData =>
    (loadConfig fs vaultName).bindR fun config =>
      let jsonData : Bytes :=
        encExportData ⟨"1.0", config, vaultData, exportedAt⟩
      (Crypto.encryptWithPassword jsonData password salt nonce
          innerSalt).bindR fun t =>
        .ok ⟨true, "1.0", t.1, t.2.1, t.2.2, Crypto.checksum t.1⟩

/-- One entry write of `import_vault` (lines 515–521): write the raw bytes
at `entry_path`, creating parent directories. -/
def writeRaw (fs : FS) (vaultName : String) (k : Str) (c : Bytes) : FS :=
  let v := (getAssoc vaultName fs.vaults).getD ⟨none, none⟩
  let v' : VaultDir :=
    ⟨v.config, some (setFileT (v.store.getD []) (entryRel k) c)⟩
  { fs with vaults := setAssoc vaultName v' fs.vaults }

/-- `storage.rs` lines 466–525, `Storage::import_vault`, with the
filesystem threaded explicitly so that "no mutation on failure" is a
statement of the model.  Order of checks follows the source: magic flag,
checksum, decrypt, parse, then `init_vault` (note: no `VaultExists` check)
and the entry writes. -/
def importVault (fs : FS) (env : ExportEnvelope) (password : String)
    (vaultName : String) : Res Unit × FS :=
  if env.bunkerExport ≠ true then (.err .ImportFailure, fs)
  else if Crypto.checksum env.encryptedData ≠ env.checksum then
    (.err .ChecksumMismatch, fs)
  else
    match Crypto.decryptWithPassword env.encryptedData env.nonce env.salt
        password with
    | .err e => (.err e, fs)
    | .panic => (.panic, fs)
    | .ok decrypted =>
        match exportDataFromBytes decrypted with
        | none => (.err .SerializationFailure, fs)
        | some vdata =>
            let config := { vdata.vaultConfig with name := vaultName }
            let fs1 := initVault fs vaultName config
            (.ok (), vdata.entries.foldl
              (fun acc p => writeRaw acc vaultName p.1 p.2) fs1)

end Storage

/-- Inverting a successful export: the envelope has the magic flag set and
its checksum field is the checksum of its ciphertext. -/
theorem exportVault_ok_shape (fs : FS) (vaultName : String)
    (password : String) (salt nonce innerSalt : Bytes) (exportedAt : Int)
    (env : ExportEnvelope)
    (h : Storage.exportVault fs vaultName password salt nonce innerSalt
      exportedAt = .ok env) :
    env.bunkerExport = true ∧
    env.checksum = Crypto.checksum env.encryptedData := by
  rw [Storage.exportVault] at h
  rcases hco : Storage.collectEntriesAux
      ((getAssoc vaultName fs.vaults).getD ⟨none, none⟩) []
      (Storage.listEntries ((getAssoc vaultName fs.vaults).getD
        ⟨none, none⟩)) with a | e1 | _ <;>
    rw [hco] at h <;>
    [skip; exact absurd h (by simp [Res.bindR]);
     exact absurd h (by simp [Res.bindR])]
  rcases hcf : Storage.loadConfig fs vaultName with b | e2 | _ <;>
    rw [hcf] at h <;>
    [skip; exact absurd h (by simp [Res.bindR]);
     exact absurd h (by simp [Res.bindR])]
  have henc : ∀ data : Bytes,
      Crypto.encryptWithPassword data password salt nonce innerSalt =
        .ok (aeadEncrypt (Crypto.kdfBytes password salt) nonce data,
          nonce, salt) := by
    intro data
    simp [Crypto.encryptWithPassword, Crypto.encrypt, Crypto.deriveKey]
  simp only [Res.bindR_ok, henc] at h
  cases h
  exact ⟨rfl, rfl⟩

/-- A single-byte change at a position of a list changes the list. -/
theorem set_ne_of_ne {l : Bytes} {i : Nat} {c : Nat} (hi : i < l.length)
    (hc : c ≠ l[i]) : l.set i c ≠ l := by
  intro he
  apply hc
  have hi2 : i < (l.set i c).length := by simpa using hi
  have h1 : (l.set i c)[i] = c := List.getElem_set_self hi2
  rw [← h1]
  exact List.getElem_of_eq he _

/-- **C2.**  For every export blob produced by `export_vault` in which one
byte of the ciphertext has been changed (in particular flipped),
`import_vault` fails with `ChecksumMismatch` and the filesystem it was
invoked on is returned unchanged: the failure occurs before any
mutation. -/
theorem claim_C2 (fs fs2 : FS) (srcName newName : String)
    (password password2 : String) (salt nonce innerSalt : Bytes)
    (exportedAt : Int) (env : ExportEnvelope) (i : Nat) (c : Nat)
    (hexp : Storage.exportVault fs srcName password salt nonce innerSalt
      exportedAt = .ok env)
    (hi : i < env.encryptedData.length)
    (hc : c ≠ env.encryptedData[i]) :
    Storage.importVault fs2
      { env with encryptedData := env.encryptedData.set i c }
      password2 newName = (.err .ChecksumMismatch, fs2) := by
  obtain ⟨hflag, hsum⟩ := exportVault_ok_shape fs srcName password salt
    nonce innerSalt exportedAt env hexp
  rw [Storage.importVault]
  rw [if_neg (by simp [hflag])]
  rw [if_pos]
  rw [Crypto.checksum] at hsum ⊢
  rw [hsum]
  exact set_ne_of_ne hi hc

/-! ## Canonical entry paths (for the export/import round trip)

A store file is *canonical* when it sits exactly at `entry_path` of its
own walk-derived logical key: its path is `ps ++ [stem ++ ".json"]` where
no component contains `'/'` or an occurrence of `".json"`.  Vaults whose
entries were written by `store_entry` have this shape. -/

/-- A well-formed path component: nonempty, no separator, no `".json"`
occurrence. -/
def goodComp (p : Str) : Prop :=
  p ≠ [] ∧ '/' ∉ p ∧ stripJsonAll p = p

instance (p : Str) : Decidable (goodComp p) := by
  unfold goodComp
  infer_instance

/-- A canonical store file path. -/
def canonPath (P : List Str) : Prop :=
  ∃ ps stem, P = ps ++ [stem ++ jsonExt] ∧
    (∀ p ∈ ps, goodComp p) ∧ goodComp stem

/-- `a` is a prefix of `b`. -/
def pfxOf {α : Type} (a b : List α) : Prop := ∃ t, b = a ++ t

theorem pfxOf_cons {α : Type} (x : α) (a b : List α) :
    pfxOf (x :: a) (x :: b) ↔ pfxOf a b := by
  constructor
  · rintro ⟨t, ht⟩
    exact ⟨t, by simpa using ht⟩
  · rintro ⟨t, ht⟩
    exact ⟨t, by simp [ht]⟩

/-- Joining good components yields a string with no `".json"`
occurrence. -/
theorem goodJoin (comps : List Str) (h : ∀ p ∈ comps, goodComp p) :
    stripJsonAll (joinSlash comps) = joinSlash comps := by
  induction comps with
  | nil => rfl
  | cons p rest ih =>
      rcases rest with _ | ⟨q, rest⟩
      · exact (h p (List.mem_cons_self p [])).2.2
      · rw [show joinSlash (p :: q :: rest) =
            p ++ '/' :: joinSlash (q :: rest) from rfl]
        rw [stripJsonAll_append p _ (h p (List.mem_cons_self p _)).2.2
          (by intro c hc; simp at hc; subst hc; decide)]
        rw [stripJsonAll.eq_2 '/' _ (fun r1 hch => absurd hch (by decide))]
        rw [ih (fun x hx => h x (List.mem_cons_of_mem p hx))]

/-- The walk key of a canonical path: strip-all recovers the join of the
components with the suffix removed from the last. -/
theorem canon_key (ps : List Str) (stem : Str)
    (hps : ∀ p ∈ ps, goodComp p) (hstem : goodComp stem) :
    stripJsonAll (joinSlash (ps ++ [stem ++ jsonExt])) =
      joinSlash (ps ++ [stem]) := by
  rw [joinSlash_append_last, stripJsonAll_append_jsonExt]
  apply goodJoin
  intro p hp
  rcases List.mem_append.1 hp with h1 | h2
  · exact hps p h1
  · rw [List.mem_singleton.1 h2]
    exact hstem

/-- `entry_path` of the canonical key leads back to the canonical path. -/
theorem canon_entryRel (ps : List Str) (stem : Str)
    (hps : ∀ p ∈ ps, goodComp p) (hstem : goodComp stem) :
    Storage.entryRel (joinSlash (ps ++ [stem])) = ps ++ [stem ++ jsonExt] := by
  rw [Storage.entryRel, ← joinSlash_append_last, splitSlash_joinSlash]
  · simp
  · intro p hp
    rcases List.mem_append.1 hp with h1 | h2
    · exact (hps p h1).2.1
    · rw [List.mem_singleton.1 h2]
      intro hmem
      rcases List.mem_append.1 hmem with h3 | h4
      · exact hstem.2.1 h3
      · revert h4
        decide

theorem entryRel_inj {a b : Str} (h : Storage.entryRel a = Storage.entryRel b) :
    a = b := by
  have ha := joinSlash_splitSlash (a ++ jsonExt)
  have hb := joinSlash_splitSlash (b ++ jsonExt)
  rw [show splitSlash (a ++ jsonExt) = Storage.entryRel a from rfl, h,
    show Storage.entryRel b = splitSlash (b ++ jsonExt) from rfl, hb] at ha
  exact (List.append_cancel_right ha).symm

/-- A canonical path that is a prefix of another canonical path equals
it: the `stem ++ ".json"` component cannot be a non-final (good)
component. -/
theorem canon_pfx_eq {P Q : List Str} (hP : canonPath P) (hQ : canonPath Q)
    (hpfx : pfxOf P Q) : P = Q := by
  obtain ⟨ps, stem, hPeq, hps, hstem⟩ := hP
  obtain ⟨qs, qstem, hQeq, hqs, hqstem⟩ := hQ
  obtain ⟨t, ht⟩ := hpfx
  rcases t with _ | ⟨t0, t⟩
  · rw [ht, List.append_nil]
  · exfalso
    -- the last component of P is a non-final component of Q
    have h1 : qs ++ [qstem ++ jsonExt] =
        ps ++ [stem ++ jsonExt] ++ (t0 :: t) := by
      rw [← hQeq, ht, hPeq]
    have hx : (stem ++ jsonExt) ∈ qs := by
      have htake : qs = ((qs ++ [qstem ++ jsonExt]).take qs.length) :=
        (List.take_left qs _).symm
      rw [h1] at htake
      have hlen : qs.length = (ps ++ [stem ++ jsonExt]).length + t.length := by
        have hl := congrArg List.length h1
        simp only [List.length_append, List.length_cons,
          List.length_nil] at hl ⊢
        omega
      rw [hlen, List.take_append] at htake
      rw [htake]
      exact List.mem_append_left _ (List.mem_append_right _
        (List.mem_singleton.2 rfl))
    have hgood := hqs _ hx
    have hstrip : stripJsonAll (stem ++ jsonExt) = stem :=
      stripJsonAll_append_jsonExt stem hstem.2.2
    have hlen := congrArg List.length (hgood.2.2.symm.trans hstrip)
    simp [jsonExt] at hlen

/-! ## Well-formed trees and reading flattened files -/

/-- A real directory tree: sibling names are distinct. -/
inductive WfTree : FsTree → Prop
  | file (c : Bytes) : WfTree (.file c)
  | dir (d : List (Str × FsTree)) : (d.map Prod.fst).Nodup →
      (∀ p ∈ d, WfTree p.2) → WfTree (.dir d)

/-- A real store directory: sibling names are distinct at every level. -/
def WfDir (d : Dir) : Prop :=
  (d.map Prod.fst).Nodup ∧ ∀ p ∈ d, WfTree p.2

theorem getAssoc_of_mem_nodup {κ β : Type} [DecidableEq κ]
    {l : List (κ × β)} {k : κ} {v : β}
    (hnd : (l.map Prod.fst).Nodup) (h : (k, v) ∈ l) :
    getAssoc k l = some v := by
  induction l with
  | nil => simp at h
  | cons hd tl ih =>
      obtain ⟨k', v'⟩ := hd
      rcases List.mem_cons.1 h with he | hm
      · obtain ⟨hk, hv⟩ := Prod.mk.injEq .. ▸ he
        rw [getAssoc, if_pos hk.symm, hv]
      · have hk : ¬ k' = k := by
          intro he'
          subst he'
          have : k' ∈ tl.map Prod.fst :=
            List.mem_map.2 ⟨(k', v), hm, rfl⟩
          exact (List.nodup_cons.1 (by simpa using hnd)).1 this
        rw [getAssoc, if_neg hk]
        exact ih (List.nodup_cons.1 (by simpa using hnd)).2 hm

/-- The named-subtree part of `filesOfDir`. -/
def filesUnder (nm : Str) (t : FsTree) : List (List Str × Bytes) :=
  (filesOfTree t).map (fun pc => (nm :: pc.1, pc.2))

theorem filesOfDir_cons (nm : Str) (t : FsTree) (rest : Dir) :
    filesOfDir ((nm, t) :: rest) = filesUnder nm t ++ filesOfDir rest := by
  rw [filesOfDir]
  rfl

theorem mem_filesOfDir_cons {d : Dir} {nm : Str} {rest : List Str}
    {c : Bytes} (h : (nm :: rest, c) ∈ filesOfDir d) :
    ∃ t, (nm, t) ∈ d ∧
      ((rest = [] ∧ t = .file c) ∨
       (∃ d', t = .dir d' ∧ (rest, c) ∈ filesOfDir d')) := by
  induction d with
  | nil => rw [filesOfDir] at h; simp at h
  | cons hd tl ih =>
      obtain ⟨nm0, t0⟩ := hd
      rw [filesOfDir_cons] at h
      rcases List.mem_append.1 h with h1 | h2
      · obtain ⟨pc, hmem, heq⟩ := List.mem_map.1 h1
        obtain ⟨rest', c'⟩ := pc
        have heq1 : (nm0 = nm ∧ rest' = rest) ∧ c' = c := by
          simpa using heq
        obtain ⟨⟨ha, hb⟩, hc2⟩ := heq1
        subst ha hb hc2
        cases t0 with
        | file cf =>
            rw [filesOfTree] at hmem
            have hrc : rest' = [] ∧ c' = cf := by simpa using hmem
            refine ⟨.file cf, List.mem_cons_self _ _,
              Or.inl ⟨hrc.1, ?_⟩⟩
            rw [hrc.2]
        | dir dd =>
            rw [filesOfTree] at hmem
            exact ⟨.dir dd, List.mem_cons_self _ _,
              Or.inr ⟨dd, rfl, hmem⟩⟩
      · obtain ⟨t, ht, hcase⟩ := ih h2
        exact ⟨t, List.mem_cons_of_mem _ ht, hcase⟩

/-- In a well-formed directory, every flattened file can be read back at
its path. -/
theorem filesOf_getFileT {d : Dir} {P : List Str} {c : Bytes}
    (hwf : WfDir d) (h : (P, c) ∈ filesOfDir d) :
    getFileT d P = some c := by
  induction P generalizing d with
  | nil => exact absurd rfl (mem_filesOfDir_ne_nil d ([], c) h)
  | cons nm rest ih =>
      obtain ⟨t, ht, hcase⟩ := mem_filesOfDir_cons h
      rcases hcase with ⟨hrest, hfile⟩ | ⟨d', hdir, hmem⟩
      · subst hrest hfile
        rw [getFileT_single, getAssoc_of_mem_nodup hwf.1 ht]
      · subst hdir
        have hne : rest ≠ [] := mem_filesOfDir_ne_nil d' (rest, c) hmem
        rcases rest with _ | ⟨q, qs⟩
        · exact absurd rfl hne
        · rw [getFileT_cons, getAssoc_of_mem_nodup hwf.1 ht]
          have hwf' : WfDir d' := by
            have := hwf.2 _ ht
            cases this with
            | dir _ hnd hall => exact ⟨hnd, hall⟩
          exact ih hwf' hmem

/-! ## Writing files and the flattened view -/

/-- Paths that do not collide as file-system locations: neither is a
prefix of the other (equality included). -/
def noConfl (P Q : List Str) : Prop := ¬ pfxOf P Q ∧ ¬ pfxOf Q P

theorem filesOf_setAssoc_none {d : Dir} {nm : Str}
    (h : getAssoc nm d = none) (t : FsTree) :
    filesOfDir (setAssoc nm t d) = filesOfDir d ++ filesUnder nm t := by
  induction d with
  | nil =>
      rw [setAssoc, filesOfDir_cons, filesOfDir]
      simp
  | cons hd tl ih =>
      obtain ⟨nm0, t0⟩ := hd
      rw [getAssoc] at h
      by_cases he : nm0 = nm
      · rw [if_pos he] at h
        exact absurd h (by simp)
      · rw [if_neg he] at h
        rw [setAssoc, if_neg he, filesOfDir_cons, ih h, filesOfDir_cons,
          List.append_assoc]

theorem filesOf_setAssoc_some {d : Dir} {nm : Str} {t0 : FsTree}
    (h : getAssoc nm d = some t0) :
    ∃ A B, filesOfDir d = A ++ filesUnder nm t0 ++ B ∧
      ∀ t, filesOfDir (setAssoc nm t d) = A ++ filesUnder nm t ++ B := by
  induction d with
  | nil => rw [getAssoc] at h; exact absurd h (by simp)
  | cons hd tl ih =>
      obtain ⟨nm0, t0'⟩ := hd
      rw [getAssoc] at h
      by_cases he : nm0 = nm
      · rw [if_pos he] at h
        have ht0 : t0' = t0 := by simpa using h
        subst he ht0
        refine ⟨[], filesOfDir tl, by rw [filesOfDir_cons]; simp, ?_⟩
        intro t
        rw [setAssoc, if_pos rfl, filesOfDir_cons]
        simp
      · rw [if_neg he] at h
        obtain ⟨A, B, h1, h2⟩ := ih h
        refine ⟨filesUnder nm0 t0' ++ A, B, ?_, ?_⟩
        · rw [filesOfDir_cons, h1]
          simp [List.append_assoc]
        · intro t
          rw [setAssoc, if_neg he, filesOfDir_cons, h2 t]
          simp [List.append_assoc]

theorem filesOf_setFileT_nil (P : List Str) (c : Bytes) (hP : P ≠ []) :
    filesOfDir (setFileT [] P c) = [(P, c)] := by
  induction P with
  | nil => exact absurd rfl hP
  | cons nm rest ih =>
      rcases rest with _ | ⟨q, qs⟩
      · rw [setFileT_single, setAssoc, filesOfDir_cons, filesOfDir,
          filesUnder, filesOfTree]
        rfl
      · rw [setFileT_cons]
        rw [show getAssoc nm ([] : Dir) = none from rfl]
        rw [setAssoc, filesOfDir_cons, filesOfDir, filesUnder, filesOfTree,
          ih (List.cons_ne_nil q qs)]
        rfl

theorem filesUnder_file (nm : Str) (c : Bytes) :
    filesUnder nm (.file c) = [([nm], c)] := by
  rw [filesUnder, filesOfTree]
  rfl

theorem filesUnder_dir (nm : Str) (d : Dir) :
    filesUnder nm (.dir d) =
      (filesOfDir d).map (fun pc => (nm :: pc.1, pc.2)) := by
  rw [filesUnder, filesOfTree]

/-- Writing a fresh, non-colliding file adds exactly that file to the
flattened view (as a permutation). -/
theorem filesOf_setFileT (P : List Str) (d : Dir) (c : Bytes) (hP : P ≠ [])
    (hconf : ∀ Q ∈ (filesOfDir d).map Prod.fst, noConfl P Q) :
    (filesOfDir (setFileT d P c)).Perm ((P, c) :: filesOfDir d) := by
  induction P generalizing d with
  | nil => exact absurd rfl hP
  | cons nm rest ih =>
      rcases rest with _ | ⟨q, qs⟩
      · rw [setFileT_single]
        rcases h : getAssoc nm d with _ | t0
        · rw [filesOf_setAssoc_none h, filesUnder_file]
          exact List.perm_append_singleton _ _
        · obtain ⟨A, B, h1, h2⟩ := filesOf_setAssoc_some h
          have hF0 : filesUnder nm t0 = [] := by
            cases t0 with
            | file f =>
                exfalso
                have hmem : ([nm] : List Str) ∈ (filesOfDir d).map Prod.fst := by
                  rw [h1]
                  refine List.mem_map.2 ⟨([nm], f), ?_, rfl⟩
                  exact List.mem_append_left _ (List.mem_append_right _
                    (by rw [filesUnder_file]; simp))
                exact (hconf _ hmem).1 ⟨[], rfl⟩
            | dir dd =>
                rcases hdd : filesOfDir dd with _ | ⟨pc0, rest0⟩
                · rw [filesUnder_dir, hdd]
                  rfl
                · exfalso
                  have hmem : (nm :: pc0.1) ∈ (filesOfDir d).map Prod.fst := by
                    rw [h1]
                    refine List.mem_map.2 ⟨(nm :: pc0.1, pc0.2), ?_, rfl⟩
                    refine List.mem_append_left _ (List.mem_append_right _ ?_)
                    rw [filesUnder_dir, hdd]
                    exact List.mem_map.2 ⟨pc0, List.mem_cons_self _ _, rfl⟩
                  exact (hconf _ hmem).1 ⟨pc0.1, rfl⟩
          rw [h2, filesUnder_file, h1, hF0, List.append_nil]
          rw [show A ++ [([nm], c)] ++ B = A ++ ([nm], c) :: B by simp]
          exact List.perm_middle
      · rw [setFileT_cons]
        rcases h : getAssoc nm d with _ | t0
        · rw [filesOf_setAssoc_none h, filesUnder_dir,
            filesOf_setFileT_nil _ _ (List.cons_ne_nil q qs)]
          rw [show (([(q :: qs, c)] : List (List Str × Bytes)).map
            (fun pc => (nm :: pc.1, pc.2))) = [(nm :: q :: qs, c)] from rfl]
          exact List.perm_append_singleton _ _
        · cases t0 with
          | file f =>
              exfalso
              obtain ⟨A, B, h1, -⟩ := filesOf_setAssoc_some h
              have hmem : ([nm] : List Str) ∈ (filesOfDir d).map Prod.fst := by
                rw [h1]
                refine List.mem_map.2 ⟨([nm], f), ?_, rfl⟩
                exact List.mem_append_left _ (List.mem_append_right _
                  (by rw [filesUnder_file]; simp))
              exact (hconf _ hmem).2 ⟨q :: qs, rfl⟩
          | dir dd =>
              obtain ⟨A, B, h1, h2⟩ := filesOf_setAssoc_some h
              have hconf' : ∀ Q ∈ (filesOfDir dd).map Prod.fst,
                  noConfl (q :: qs) Q := by
                intro Q hQ
                obtain ⟨pc0, hpc0, hQeq⟩ := List.mem_map.1 hQ
                have hmem : (nm :: Q) ∈ (filesOfDir d).map Prod.fst := by
                  rw [h1]
                  refine List.mem_map.2 ⟨(nm :: Q, pc0.2), ?_, rfl⟩
                  refine List.mem_append_left _ (List.mem_append_right _ ?_)
                  rw [filesUnder_dir]
                  exact List.mem_map.2 ⟨pc0, hpc0, by rw [hQeq]⟩
                have hcnm := hconf _ hmem
                exact ⟨fun hp => hcnm.1 ((pfxOf_cons nm _ _).2 hp),
                  fun hp => hcnm.2 ((pfxOf_cons nm _ _).2 hp)⟩
              have hperm := ih dd (List.cons_ne_nil q qs) hconf'
              rw [h2, h1, filesUnder_dir, filesUnder_dir,
                List.append_assoc, List.append_assoc]
              refine List.Perm.trans (List.Perm.append_left A
                ((hperm.map _).append_right B)) ?_
              rw [List.map_cons, List.cons_append]
              exact List.perm_middle

theorem getFileT_nil (P : List Str) : getFileT [] P = none := by
  rcases P with _ | ⟨a, _ | ⟨b, t⟩⟩ <;> rfl

theorem setFileT_cons_none {d : Dir} {nm : Str} (q : Str) (qs : List Str)
    (c : Bytes) (h : getAssoc nm d = none) :
    setFileT d (nm :: q :: qs) c =
      setAssoc nm (.dir (setFileT [] (q :: qs) c)) d := by
  rw [setFileT_cons, h]

theorem setFileT_cons_file {d : Dir} {nm : Str} {f : Bytes} (q : Str)
    (qs : List Str) (c : Bytes) (h : getAssoc nm d = some (.file f)) :
    setFileT d (nm :: q :: qs) c =
      setAssoc nm (.dir (setFileT [] (q :: qs) c)) d := by
  rw [setFileT_cons, h]

theorem setFileT_cons_dir {d : Dir} {nm : Str} {d' : Dir} (q : Str)
    (qs : List Str) (c : Bytes) (h : getAssoc nm d = some (.dir d')) :
    setFileT d (nm :: q :: qs) c =
      setAssoc nm (.dir (setFileT d' (q :: qs) c)) d := by
  rw [setFileT_cons, h]

theorem getFileT_cons_none {d : Dir} {nm : Str} (q : Str) (qs : List Str)
    (h : getAssoc nm d = none) : getFileT d (nm :: q :: qs) = none := by
  rw [getFileT_cons, h]

theorem getFileT_cons_file {d : Dir} {nm : Str} {f : Bytes} (q : Str)
    (qs : List Str) (h : getAssoc nm d = some (.file f)) :
    getFileT d (nm :: q :: qs) = none := by
  rw [getFileT_cons, h]

theorem getFileT_cons_dir {d : Dir} {nm : Str} {d' : Dir} (q : Str)
    (qs : List Str) (h : getAssoc nm d = some (.dir d')) :
    getFileT d (nm :: q :: qs) = getFileT d' (q :: qs) := by
  rw [getFileT_cons, h]

/-- Writing at a non-colliding path does not change what is read at
another path. -/
theorem getFileT_setFileT_ne (Q : List Str) (d : Dir) (P : List Str)
    (c : Bytes) (hP : P ≠ []) (hQ : Q ≠ []) (h1 : ¬ pfxOf P Q)
    (h2 : ¬ pfxOf Q P) :
    getFileT (setFileT d Q c) P = getFileT d P := by
  induction Q generalizing d P with
  | nil => exact absurd rfl hQ
  | cons qn qrest ih =>
      rcases P with _ | ⟨pn, ps⟩
      · exact absurd rfl hP
      rcases qrest with _ | ⟨q2, qrest⟩
      · -- Q = [qn]
        have hne : qn ≠ pn := by
          intro he
          subst he
          rcases ps with _ | ⟨p2, ps⟩
          · exact h1 ⟨[], rfl⟩
          · exact h2 ⟨p2 :: ps, rfl⟩
        rw [setFileT_single]
        rcases ps with _ | ⟨p2, ps⟩
        · rw [getFileT_single, getFileT_single, getAssoc_setAssoc_ne hne]
        · rw [getFileT_cons, getFileT_cons, getAssoc_setAssoc_ne hne]
      · -- Q = qn :: q2 :: qrest
        by_cases hpq : pn = qn
        · subst hpq
          rcases ps with _ | ⟨p2, ps⟩
          · exact absurd ⟨q2 :: qrest, rfl⟩ h1
          · have h1' : ¬ pfxOf (p2 :: ps) (q2 :: qrest) :=
              fun hp => h1 ((pfxOf_cons pn _ _).2 hp)
            have h2' : ¬ pfxOf (q2 :: qrest) (p2 :: ps) :=
              fun hp => h2 ((pfxOf_cons pn _ _).2 hp)
            have hihnil := ih [] (p2 :: ps) (List.cons_ne_nil p2 ps)
              (List.cons_ne_nil q2 qrest) h1' h2'
            rcases h : getAssoc pn d with _ | t0
            · rw [setFileT_cons_none q2 qrest c h,
                getFileT_cons_dir p2 ps (getAssoc_setAssoc_self pn _ d),
                hihnil, getFileT_nil, getFileT_cons_none p2 ps h]
            · cases t0 with
              | file f =>
                  rw [setFileT_cons_file q2 qrest c h,
                    getFileT_cons_dir p2 ps (getAssoc_setAssoc_self pn _ d),
                    hihnil, getFileT_nil, getFileT_cons_file p2 ps h]
              | dir dd =>
                  rw [setFileT_cons_dir q2 qrest c h,
                    getFileT_cons_dir p2 ps (getAssoc_setAssoc_self pn _ d),
                    getFileT_cons_dir p2 ps h]
                  exact ih dd (p2 :: ps) (List.cons_ne_nil p2 ps)
                    (List.cons_ne_nil q2 qrest) h1' h2'
        · have hne : qn ≠ pn := fun he => hpq he.symm
          have hread : ∀ T : FsTree,
              getFileT (setAssoc qn T d) (pn :: ps) = getFileT d (pn :: ps) := by
            intro T
            rcases ps with _ | ⟨p2, ps⟩
            · rw [getFileT_single, getFileT_single, getAssoc_setAssoc_ne hne]
            · rw [getFileT_cons, getFileT_cons, getAssoc_setAssoc_ne hne]
          rcases h : getAssoc qn d with _ | t0
          · rw [setFileT_cons_none q2 qrest c h, hread]
          · cases t0 with
            | file f => rw [setFileT_cons_file q2 qrest c h, hread]
            | dir dd => rw [setFileT_cons_dir q2 qrest c h, hread]

/-- The entry-write fold of `import_vault`, at the store level. -/
def writeAll (d : Dir) (l : List (List Str × Bytes)) : Dir :=
  l.foldl (fun acc pc => setFileT acc pc.1 pc.2) d

theorem writeAll_nil (d : Dir) : writeAll d [] = d := rfl

theorem writeAll_cons (d : Dir) (pc : List Str × Bytes)
    (l : List (List Str × Bytes)) :
    writeAll d (pc :: l) = writeAll (setFileT d pc.1 pc.2) l := rfl

theorem getFileT_writeAll_preserve (l : List (List Str × Bytes)) (d : Dir)
    (P : List Str) (hP : P ≠ [])
    (h : ∀ pc ∈ l, pc.1 ≠ [] ∧ noConfl P pc.1) :
    getFileT (writeAll d l) P = getFileT d P := by
  induction l generalizing d with
  | nil => rfl
  | cons pc rest ih =>
      rw [writeAll_cons]
      rw [ih _ (fun x hx => h x (List.mem_cons_of_mem pc hx))]
      obtain ⟨hne, hc1, hc2⟩ := h pc (List.mem_cons_self pc rest)
      exact getFileT_setFileT_ne pc.1 d P pc.2 hP hne hc1 hc2

theorem getFileT_writeAll_mem (l : List (List Str × Bytes)) (d : Dir)
    (hl : ∀ pc ∈ l, pc.1 ≠ [])
    (hpw : l.Pairwise (fun a b => noConfl a.1 b.1)) :
    ∀ pc ∈ l, getFileT (writeAll d l) pc.1 = some pc.2 := by
  induction l generalizing d with
  | nil => intro pc h; simp at h
  | cons pc0 rest ih =>
      intro pc hpc
      rcases List.mem_cons.1 hpc with he | hm
      · subst he
        rw [writeAll_cons]
        rw [getFileT_writeAll_preserve rest _ pc.1
          (hl pc (List.mem_cons_self pc rest)) ?_]
        · exact getFileT_setFileT_self pc.1 d pc.2
            (hl pc (List.mem_cons_self pc rest))
        · intro x hx
          exact ⟨hl x (List.mem_cons_of_mem pc hx),
            (List.pairwise_cons.1 hpw).1 x hx⟩
      · rw [writeAll_cons]
        exact ih _ (fun x hx => hl x (List.mem_cons_of_mem pc0 hx))
          (List.pairwise_cons.1 hpw).2 pc hm

theorem filesOf_writeAll (l : List (List Str × Bytes)) (d : Dir)
    (hl : ∀ pc ∈ l, pc.1 ≠ [])
    (hpw : l.Pairwise (fun a b => noConfl a.1 b.1))
    (hcross : ∀ pc ∈ l, ∀ Q ∈ (filesOfDir d).map Prod.fst, noConfl pc.1 Q) :
    (filesOfDir (writeAll d l)).Perm (l ++ filesOfDir d) := by
  induction l generalizing d with
  | nil => rfl
  | cons pc0 rest ih =>
      rw [writeAll_cons]
      have hd1 : (filesOfDir (setFileT d pc0.1 pc0.2)).Perm
          (pc0 :: filesOfDir d) := by
        have := filesOf_setFileT pc0.1 d pc0.2
          (hl pc0 (List.mem_cons_self pc0 rest))
          (hcross pc0 (List.mem_cons_self pc0 rest))
        simpa using this
      have hcross' : ∀ pc ∈ rest,
          ∀ Q ∈ (filesOfDir (setFileT d pc0.1 pc0.2)).map Prod.fst,
            noConfl pc.1 Q := by
        intro pc hpc Q hQ
        have hQ' : Q ∈ (pc0 :: filesOfDir d).map Prod.fst :=
          ((hd1.map Prod.fst).mem_iff).1 hQ
        rcases List.mem_cons.1 hQ' with he | hm
        · subst he
          have := (List.pairwise_cons.1 hpw).1 pc hpc
          exact ⟨this.2, this.1⟩
        · exact hcross pc (List.mem_cons_of_mem pc0 hpc) Q hm
      have hperm := ih (setFileT d pc0.1 pc0.2)
        (fun x hx => hl x (List.mem_cons_of_mem pc0 hx))
        (List.pairwise_cons.1 hpw).2 hcross'
      refine hperm.trans ?_
      refine List.Perm.trans (List.Perm.append_left rest hd1) ?_
      rw [show pc0 :: rest ++ filesOfDir d = pc0 :: (rest ++ filesOfDir d)
        from rfl]
      exact List.perm_middle

/-! ## C3: the export/import round trip on canonical vaults -/

theorem getAssoc_append_none {κ β : Type} [DecidableEq κ] {k : κ}
    {l1 : List (κ × β)} (l2 : List (κ × β)) (h : getAssoc k l1 = none) :
    getAssoc k (l1 ++ l2) = getAssoc k l2 := by
  induction l1 with
  | nil => rfl
  | cons hd tl ih =>
      obtain ⟨k', v'⟩ := hd
      rw [getAssoc] at h
      by_cases he : k' = k
      · rw [if_pos he] at h
        exact absurd h (by simp)
      · rw [if_neg he] at h
        rw [List.cons_append, getAssoc, if_neg he]
        exact ih h

/-- `HashMap::insert` with a key not yet bound appends the binding. -/
theorem setAssoc_fresh {κ β : Type} [DecidableEq κ] {k : κ} (v : β)
    {l : List (κ × β)} (h : getAssoc k l = none) :
    setAssoc k v l = l ++ [(k, v)] := by
  induction l with
  | nil => rfl
  | cons hd tl ih =>
      obtain ⟨k', v'⟩ := hd
      rw [getAssoc] at h
      by_cases he : k' = k
      · rw [if_pos he] at h
        exact absurd h (by simp)
      · rw [if_neg he] at h
        rw [setAssoc, if_neg he, ih h, List.cons_append]

/-- The bytes stored at a key (total version of `readEntryFile`, used to
name the collected contents). -/
def fileOf (v : VaultDir) (k : Str) : Bytes :=
  (Storage.readEntryFile v k).getD []

/-- The collection loop of `export_vault` succeeds on readable, distinct
keys and gathers the file bytes in key order. -/
theorem collect_ok (v : VaultDir) (keys : List Str) :
    ∀ acc : List (Str × Bytes),
    (∀ k ∈ keys, (Storage.readEntryFile v k).isSome = true) →
    (∀ k ∈ keys, getAssoc k acc = none) → keys.Nodup →
    Storage.collectEntriesAux v acc keys =
      .ok (acc ++ keys.map (fun k => (k, fileOf v k))) := by
  induction keys with
  | nil =>
      intro acc _ _ _
      rw [Storage.collectEntriesAux]
      simp
  | cons k rest ih =>
      intro acc hread hfresh hnd
      have hsome := hread k (List.mem_cons_self k rest)
      rcases hr : Storage.readEntryFile v k with _ | c
      · rw [hr] at hsome
        exact absurd hsome (by simp)
      · have hfo : fileOf v k = c := by
          rw [fileOf, hr]
          rfl
        rw [Storage.collectEntriesAux]
        simp only [hr]
        rw [setAssoc_fresh c (hfresh k (List.mem_cons_self k rest))]
        rw [ih (acc ++ [(k, c)])
          (fun x hx => hread x (List.mem_cons_of_mem k hx)) ?_
          (List.nodup_cons.1 hnd).2]
        · rw [← hfo, List.append_assoc]
          rfl
        · intro x hx
          rw [getAssoc_append_none _ (hfresh x (List.mem_cons_of_mem k hx))]
          rw [getAssoc, if_neg ?_]
          · rfl
          · intro he
            exact (List.nodup_cons.1 hnd).1 (by rw [he]; exact hx)

theorem getLastD_append_single {α : Type} (l : List α) (x : α) :
    ∀ d : α, (l ++ [x]).getLastD d = x := by
  induction l with
  | nil => intro d; rfl
  | cons a t ih =>
      intro d
      rw [List.cons_append, List.getLastD_cons]
      exact ih a

/-- A canonical store file has extension `json`. -/
theorem canonPath_extIsJson {P : List Str} (h : canonPath P) :
    extIsJson (P.getLastD []) = true := by
  obtain ⟨ps, stem, hPeq, hps, hstem⟩ := h
  rw [hPeq, getLastD_append_single]
  exact extIsJson_stem stem hstem.1

/-- The logical key `walk_entries` derives from a store file path. -/
def keyOfPath (P : List Str) : Str := stripJsonAll (joinSlash P)

/-- On a canonical path, `entry_path` of the walk-derived key leads back
to the path itself. -/
theorem entryRel_keyOfPath {P : List Str} (hP : canonPath P) :
    Storage.entryRel (keyOfPath P) = P := by
  obtain ⟨ps, stem, hPeq, hps, hstem⟩ := hP
  rw [hPeq, keyOfPath, canon_key ps stem hps hstem,
    canon_entryRel ps stem hps hstem]

/-- The walk-derived key is injective on canonical paths. -/
theorem keyOfPath_inj {P Q : List Str} (hP : canonPath P) (hQ : canonPath Q)
    (h : keyOfPath P = keyOfPath Q) : P = Q := by
  rw [← entryRel_keyOfPath hP, ← entryRel_keyOfPath hQ, h]

theorem filterMap_some_eq_map {α β : Type} (g : α → β) (l : List α) :
    l.filterMap (fun a => some (g a)) = l.map g := by
  induction l with
  | nil => rfl
  | cons a t ih => simp only [List.filterMap_cons, List.map_cons, ih]

/-- On canonical paths the walk's filter keeps every file and the key map
is total. -/
theorem walk_filterMap_canon (l : List (List Str × Bytes)) :
    (∀ P ∈ l.map Prod.fst, canonPath P) →
    l.filterMap (fun pc =>
      if extIsJson (pc.1.getLastD []) then
        some (stripJsonAll (joinSlash ([] ++ pc.1)))
      else none) = l.map (fun pc => keyOfPath pc.1) := by
  intro h
  have hcg : ∀ pc ∈ l,
      (if extIsJson ((pc : List Str × Bytes).1.getLastD []) then
        some (stripJsonAll (joinSlash ([] ++ pc.1)))
      else none) = some (keyOfPath pc.1) := by
    intro pc hpc
    rw [canonPath_extIsJson (h pc.1 (List.mem_map.2 ⟨pc, hpc, rfl⟩)),
      if_pos rfl, List.nil_append, keyOfPath]
  rw [List.filterMap_congr hcg]
  exact filterMap_some_eq_map _ l

/-- `walk_entries` on a canonical store is exactly the key map over the
flattened files. -/
theorem walkDir_canon (d : Dir)
    (hcanon : ∀ P ∈ (filesOfDir d).map Prod.fst, canonPath P) :
    walkDir [] d = (filesOfDir d).map (fun pc => keyOfPath pc.1) := by
  rw [walkDir_eq]
  exact walk_filterMap_canon (filesOfDir d) hcanon

/-- Distinct canonical paths never collide as filesystem locations. -/
theorem canon_noConfl {P Q : List Str} (hP : canonPath P) (hQ : canonPath Q)
    (hne : P ≠ Q) : noConfl P Q :=
  ⟨fun hp => hne (canon_pfx_eq hP hQ hp),
   fun hp => hne ((canon_pfx_eq hQ hP hp).symm)⟩

theorem map_keyOf_entryRel (keys : List Str)
    (h : ∀ k ∈ keys, keyOfPath (Storage.entryRel k) = k) :
    keys.map (fun k => keyOfPath (Storage.entryRel k)) = keys := by
  induction keys with
  | nil => rfl
  | cons k rest ih =>
      rw [List.map_cons, h k (List.mem_cons_self k rest),
        ih (fun x hx => h x (List.mem_cons_of_mem k hx))]

theorem filesOfDir_nil : filesOfDir [] = [] := by
  rw [filesOfDir]

/-- The entry-write loop of `import_vault`, seen from the target vault:
every write lands in its `store/` tree and the config is untouched. -/
theorem fold_writeRaw (l : List (Str × Bytes)) (vaultName : String)
    (cfg : Option VaultConfig) :
    ∀ (fs : FS) (d : Dir),
    getAssoc vaultName fs.vaults = some ⟨cfg, some d⟩ →
    getAssoc vaultName
      (l.foldl (fun acc p => Storage.writeRaw acc vaultName p.1 p.2)
        fs).vaults =
      some ⟨cfg, some (writeAll d
        (l.map (fun p => (Storage.entryRel p.1, p.2))))⟩ := by
  induction l with
  | nil =>
      intro fs d h
      rw [List.foldl_nil, List.map_nil, writeAll_nil, h]
  | cons p rest ih =>
      intro fs d h
      rw [List.foldl_cons, List.map_cons, writeAll_cons]
      refine ih _ (setFileT d (Storage.entryRel p.1) p.2) ?_
      rw [Storage.writeRaw]
      simp only [h, Option.getD_some]
      exact getAssoc_setAssoc_self _ _ _

/-- Every key listed on a canonical store comes from a flattened file, and
reading the key back returns that file's bytes. -/
theorem readEntryFile_listed {v : VaultDir} {d : Dir} (hd : v.store = some d)
    (hwf : WfDir d)
    (hcanon : ∀ P ∈ (filesOfDir d).map Prod.fst, canonPath P)
    {k : Str} (hk : k ∈ Storage.listEntries v) :
    ∃ pc, pc ∈ filesOfDir d ∧ k = keyOfPath pc.1 ∧
      Storage.readEntryFile v k = some pc.2 := by
  simp only [Storage.listEntries, hd] at hk
  have hk' := (List.perm_insertionSort (fun a b : Str => a ≤ b)
    (walkDir [] d)).mem_iff.1 hk
  rw [walkDir_canon d hcanon] at hk'
  obtain ⟨pc, hpc, hkey⟩ := List.mem_map.1 hk'
  have hkey' : keyOfPath pc.1 = k := hkey
  refine ⟨pc, hpc, hkey'.symm, ?_⟩
  rw [Storage.readEntryFile]
  simp only [hd]
  rw [← hkey',
    entryRel_keyOfPath (hcanon pc.1 (List.mem_map.2 ⟨pc, hpc, rfl⟩))]
  exact filesOf_getFileT hwf hpc

/-- **C3 (amended).**  On a vault whose `store/` is canonical (every file
sits at `entry_path` of its own walk key, sibling names are distinct, and
the flattened paths are distinct), `export_vault(p)` followed by
`import_vault` of the envelope with the same password `p` and a fresh
vault name yields a vault whose config is the source's with only the name
replaced (in particular the vault id — the master-key salt — is
preserved), whose `list_entries` equals the source's, and whose entry
files are the source's raw bytes copied verbatim, so every entry loads
under the source vault's master key exactly as before.  (Without the
canonicity hypotheses the round trip can lose entries, see the
counterexample.) -/
theorem claim_C3 (fs fs2 : FS) (srcName newName password : String)
    (salt nonce innerSalt : Bytes) (exportedAt : Int)
    (v : VaultDir) (d : Dir) (config : VaultConfig)
    (hv : getAssoc srcName fs.vaults = some v)
    (hd : v.store = some d) (hcfg : v.config = some config)
    (hwf : WfDir d)
    (hcanon : ∀ P ∈ (filesOfDir d).map Prod.fst, canonPath P)
    (hnd : ((filesOfDir d).map Prod.fst).Nodup)
    (hfresh : getAssoc newName fs2.vaults = none)
    (hn : nonce.length = 12) :
    ∃ env fs2' v',
      Storage.exportVault fs srcName password salt nonce innerSalt
        exportedAt = .ok env ∧
      Storage.importVault fs2 env password newName = (.ok (), fs2') ∧
      getAssoc newName fs2'.vaults = some v' ∧
      v'.config = some { config with name := newName } ∧
      Storage.listEntries v' = Storage.listEntries v ∧
      (∀ k ∈ Storage.listEntries v,
        Storage.readEntryFile v' k = Storage.readEntryFile v k) ∧
      (∀ k ∈ Storage.listEntries v, ∀ mk : MasterKey,
        Storage.loadEntry fs2' newName k mk =
          Storage.loadEntry fs srcName k mk) := by
  -- keys of the source vault
  have hrs : ∀ k ∈ Storage.listEntries v,
      (Storage.readEntryFile v k).isSome = true := by
    intro k hk
    obtain ⟨pc, -, -, hr⟩ := readEntryFile_listed hd hwf hcanon hk
    rw [hr]
    rfl
  have hwalknd : (walkDir [] d).Nodup := by
    rw [walkDir_canon d hcanon]
    have hm := List.Nodup.map_on
      (fun P hP Q hQ h => keyOfPath_inj (hcanon P hP) (hcanon Q hQ) h) hnd
    rw [List.map_map] at hm
    exact hm
  have hknd : (Storage.listEntries v).Nodup := by
    simp only [Storage.listEntries, hd]
    exact ((List.perm_insertionSort (fun a b : Str => a ≤ b)
      (walkDir [] d)).nodup_iff).2 hwalknd
  have hksorted : List.Sorted (fun a b : Str => a ≤ b)
      (Storage.listEntries v) := by
    simp only [Storage.listEntries, hd]
    exact List.sorted_insertionSort _ _
  have hkcanon : ∀ k ∈ Storage.listEntries v,
      canonPath (Storage.entryRel k) := by
    intro k hk
    obtain ⟨pc, hpc, hkey, -⟩ := readEntryFile_listed hd hwf hcanon hk
    rw [hkey,
      entryRel_keyOfPath (hcanon pc.1 (List.mem_map.2 ⟨pc, hpc, rfl⟩))]
    exact hcanon pc.1 (List.mem_map.2 ⟨pc, hpc, rfl⟩)
  have hkrel : ∀ k ∈ Storage.listEntries v,
      keyOfPath (Storage.entryRel k) = k := by
    intro k hk
    obtain ⟨pc, hpc, hkey, -⟩ := readEntryFile_listed hd hwf hcanon hk
    rw [hkey,
      entryRel_keyOfPath (hcanon pc.1 (List.mem_map.2 ⟨pc, hpc, rfl⟩))]
  -- the collected vault data
  have hcollect := collect_ok v (Storage.listEntries v) [] hrs
    (fun k _ => rfl) hknd
  rw [List.nil_append] at hcollect
  -- the entry-write list of the import
  have hLne : ∀ pc ∈ (Storage.listEntries v).map
      (fun k => (Storage.entryRel k, fileOf v k)), pc.1 ≠ [] := by
    intro pc hpc
    obtain ⟨k, hk, hke⟩ := List.mem_map.1 hpc
    have hke' : (Storage.entryRel k, fileOf v k) = pc := hke
    rw [← hke']
    exact Storage.entryRel_ne_nil k
  have hLpw : ((Storage.listEntries v).map
      (fun k => (Storage.entryRel k, fileOf v k))).Pairwise
      (fun a b => noConfl a.1 b.1) := by
    rw [List.pairwise_map]
    exact List.Pairwise.imp_of_mem
      (fun ha hb hne => canon_noConfl (hkcanon _ ha) (hkcanon _ hb)
        (fun he => hne (entryRel_inj he))) hknd
  have hLcanon : ∀ P ∈ ((Storage.listEntries v).map
      (fun k => (Storage.entryRel k, fileOf v k))).map Prod.fst,
      canonPath P := by
    intro P hP
    rw [List.map_map] at hP
    obtain ⟨k, hk, hke⟩ := List.mem_map.1 hP
    have hke' : Storage.entryRel k = P := hke
    rw [← hke']
    exact hkcanon k hk
  have hcrossnil : ∀ pc ∈ (Storage.listEntries v).map
      (fun k => (Storage.entryRel k, fileOf v k)),
      ∀ Q ∈ (filesOfDir ([] : Dir)).map Prod.fst, noConfl pc.1 Q := by
    intro pc _ Q hQ
    rw [filesOfDir_nil] at hQ
    exact absurd hQ (by simp)
  -- the imported store tree
  have hpermD : (filesOfDir (writeAll []
      ((Storage.listEntries v).map
        (fun k => (Storage.entryRel k, fileOf v k))))).Perm
      ((Storage.listEntries v).map
        (fun k => (Storage.entryRel k, fileOf v k))) := by
    have hp := filesOf_writeAll _ [] hLne hLpw hcrossnil
    rw [filesOfDir_nil, List.append_nil] at hp
    exact hp
  have hwalkD : (walkDir [] (writeAll []
      ((Storage.listEntries v).map
        (fun k => (Storage.entryRel k, fileOf v k))))).Perm
      (Storage.listEntries v) := by
    rw [walkDir_eq]
    refine (List.Perm.filterMap _ hpermD).trans ?_
    rw [walk_filterMap_canon _ hLcanon, List.map_map]
    rw [show ((fun pc : List Str × Bytes => keyOfPath pc.1) ∘
        fun k => (Storage.entryRel k, fileOf v k)) =
        fun k => keyOfPath (Storage.entryRel k) from rfl]
    rw [map_keyOf_entryRel _ hkrel]
  have hlistD : Storage.listEntries
      ⟨some { config with name := newName }, some (writeAll []
        ((Storage.listEntries v).map
          (fun k => (Storage.entryRel k, fileOf v k))))⟩ =
      Storage.listEntries v := by
    have h1 : Storage.listEntries
        ⟨some { config with name := newName }, some (writeAll []
          ((Storage.listEntries v).map
            (fun k => (Storage.entryRel k, fileOf v k))))⟩ =
        List.insertionSort (fun a b : Str => a ≤ b) (walkDir [] (writeAll []
          ((Storage.listEntries v).map
            (fun k => (Storage.entryRel k, fileOf v k))))) := rfl
    rw [h1]
    exact List.eq_of_perm_of_sorted
      ((List.perm_insertionSort _ _).trans hwalkD)
      (List.sorted_insertionSort _ _) hksorted
  have hreadeq : ∀ k ∈ Storage.listEntries v,
      Storage.readEntryFile
        ⟨some { config with name := newName }, some (writeAll []
          ((Storage.listEntries v).map
            (fun k => (Storage.entryRel k, fileOf v k))))⟩ k =
        Storage.readEntryFile v k := by
    intro k hk
    obtain ⟨pc, hpc, hkey, hr⟩ := readEntryFile_listed hd hwf hcanon hk
    have hfo : fileOf v k = pc.2 := by
      rw [fileOf, hr]
      rfl
    have hg : Storage.readEntryFile
        ⟨some { config with name := newName }, some (writeAll []
          ((Storage.listEntries v).map
            (fun k => (Storage.entryRel k, fileOf v k))))⟩ k =
        some (fileOf v k) :=
      getFileT_writeAll_mem _ [] hLne hLpw _ (List.mem_map.2 ⟨k, hk, rfl⟩)
    rw [hg, hfo, hr]
  -- evaluating the export
  have hexp : Storage.exportVault fs srcName password salt nonce innerSalt
      exportedAt = .ok ⟨true, "1.0",
        aeadEncrypt (Crypto.kdfBytes password salt) nonce
          (encExportData ⟨"1.0", config,
            (Storage.listEntries v).map (fun k => (k, fileOf v k)),
            exportedAt⟩),
        nonce, salt,
        Crypto.checksum (aeadEncrypt (Crypto.kdfBytes password salt) nonce
          (encExportData ⟨"1.0", config,
            (Storage.listEntries v).map (fun k => (k, fileOf v k)),
            exportedAt⟩))⟩ := by
    rw [Storage.exportVault]
    simp only [hv, Option.getD_some]
    rw [hcollect]
    simp only [Res.bindR_ok]
    rw [show Storage.loadConfig fs srcName = .ok config from by
      rw [Storage.loadConfig, Storage.loadConfigAux]
      simp only [hv, hcfg]]
    simp only [Res.bindR_ok]
    simp [Crypto.encryptWithPassword, Crypto.encrypt, Crypto.deriveKey,
      Res.bindR]
  -- evaluating the import
  have hdec : Crypto.decryptWithPassword
      (aeadEncrypt (Crypto.kdfBytes password salt) nonce
        (encExportData ⟨"1.0", config,
          (Storage.listEntries v).map (fun k => (k, fileOf v k)),
          exportedAt⟩)) nonce salt password =
      .ok (encExportData ⟨"1.0", config,
        (Storage.listEntries v).map (fun k => (k, fileOf v k)),
        exportedAt⟩) := by
    rw [Crypto.decryptWithPassword, Crypto.decrypt]
    rw [if_neg (show ¬ (Crypto.deriveKey password salt).key.length ≠ 32 by
      simp [Crypto.deriveKey])]
    rw [if_neg ?_]
    · simp [Crypto.deriveKey, aeadDecrypt_aeadEncrypt]
    · show ¬ (EncryptedValue.nonce ⟨nonce, _, salt⟩).length ≠ 12
      simpa using hn
  have himp : Storage.importVault fs2 ⟨true, "1.0",
      aeadEncrypt (Crypto.kdfBytes password salt) nonce
        (encExportData ⟨"1.0", config,
          (Storage.listEntries v).map (fun k => (k, fileOf v k)),
          exportedAt⟩),
      nonce, salt,
      Crypto.checksum (aeadEncrypt (Crypto.kdfBytes password salt) nonce
        (encExportData ⟨"1.0", config,
          (Storage.listEntries v).map (fun k => (k, fileOf v k)),
          exportedAt⟩))⟩ password newName =
      (.ok (), ((Storage.listEntries v).map
          (fun k => (k, fileOf v k))).foldl
        (fun acc p => Storage.writeRaw acc newName p.1 p.2)
        (Storage.initVault fs2 newName
          { config with name := newName })) := by
    rw [Storage.importVault]
    rw [if_neg (fun h => h rfl)]
    rw [if_neg (fun h => h rfl)]
    simp only [hdec, exportDataFromBytes_enc]
  -- the target vault after the import
  have hinit : getAssoc newName
      (Storage.initVault fs2 newName
        { config with name := newName }).vaults =
      some ⟨some { config with name := newName }, some []⟩ := by
    rw [Storage.initVault]
    simp only [hfresh, Option.getD_none]
    exact getAssoc_setAssoc_self _ _ _
  have hfold := fold_writeRaw ((Storage.listEntries v).map
      (fun k => (k, fileOf v k))) newName
    (some { config with name := newName })
    (Storage.initVault fs2 newName { config with name := newName }) []
    hinit
  rw [show ((Storage.listEntries v).map
      (fun k => (k, fileOf v k))).map
      (fun p => (Storage.entryRel p.1, p.2)) =
      (Storage.listEntries v).map
        (fun k => (Storage.entryRel k, fileOf v k)) from by
    rw [List.map_map]
    rfl] at hfold
  refine ⟨_, _, ⟨some { config with name := newName }, some (writeAll []
      ((Storage.listEntries v).map
        (fun k => (Storage.entryRel k, fileOf v k))))⟩,
    hexp, himp, hfold, rfl, hlistD, hreadeq, ?_⟩
  intro k hk mk
  simp only [Storage.loadEntry, hv, hfold, hreadeq k hk]

/-! ### Concrete vaults for the C3 round trip -/

/-- A demo vault config. -/
def cfgDemo : VaultConfig :=
  ⟨5, "s", 0, 0, ⟨"chacha20poly1305", "argon2id", 3, 65536, 2⟩,
   none, true, none⟩

/-- A non-canonical store: the file `a.json.json` walks to the same key
`a` as `a.json` (replace-all of `".json"`). -/
def dC3 : Dir :=
  [("a.json".toList, FsTree.file [1]), ("a.json.json".toList, FsTree.file [2])]

def vC3 : VaultDir := ⟨some cfgDemo, some dC3⟩

def fsC3 : FS := ⟨[("s", vC3)], []⟩

theorem listEntries_vC3 :
    Storage.listEntries vC3 = ["a".toList, "a".toList] := by
  have h1 : extIsJson "a.json".toList = true := by decide
  have h2 : extIsJson "a.json.json".toList = true := by decide
  have h3 : stripJsonAll (joinSlash ([] ++ ["a.json".toList])) =
      "a".toList := by decide
  have h4 : stripJsonAll (joinSlash ([] ++ ["a.json.json".toList])) =
      "a".toList := by decide
  show List.insertionSort (fun a b : Str => a ≤ b) (walkDir [] dC3) = _
  rw [show dC3 = [("a.json".toList, FsTree.file [1]),
    ("a.json.json".toList, FsTree.file [2])] from rfl]
  rw [walkDir, walkDir, walkDir, h1, if_pos rfl, h3, h2, if_pos rfl, h4]
  decide

/-- The ciphertext the export of `fsC3` produces: only one entry survives
the key collision in the collection map. -/
def ctC3 : Bytes :=
  aeadEncrypt (Crypto.kdfBytes "pw" [7]) (List.replicate 12 0)
    (encExportData ⟨"1.0", cfgDemo, [("a".toList, [1])], 0⟩)

def envC3 : ExportEnvelope :=
  ⟨true, "1.0", ctC3, List.replicate 12 0, [7], Crypto.checksum ctC3⟩

def cfgDemoN : VaultConfig := { cfgDemo with name := "n" }

def fs2C3 : FS :=
  ⟨[("n", ⟨some cfgDemoN, some [("a.json".toList, FsTree.file [1])]⟩)], []⟩

theorem exportC3_eval :
    Storage.exportVault fsC3 "s" "pw" [7] (List.replicate 12 0) [] 0 =
      .ok envC3 := by
  rw [Storage.exportVault]
  simp only [show getAssoc "s" fsC3.vaults = some vC3 from rfl,
    Option.getD_some]
  rw [listEntries_vC3]
  rw [show Storage.collectEntriesAux vC3 [] ["a".toList, "a".toList] =
    .ok [("a".toList, [1])] from rfl]
  simp only [Res.bindR_ok]
  rw [show Storage.loadConfig fsC3 "s" = .ok cfgDemo from rfl]
  simp only [Res.bindR_ok]
  simp [Crypto.encryptWithPassword, Crypto.encrypt, Crypto.deriveKey,
    Res.bindR, envC3, ctC3]

theorem importC3_eval :
    Storage.importVault ⟨[], []⟩ envC3 "pw" "n" = (.ok (), fs2C3) := by
  rw [Storage.importVault]
  rw [if_neg (fun h => h rfl)]
  rw [if_neg (fun h => h rfl)]
  have hdec : Crypto.decryptWithPassword envC3.encryptedData envC3.nonce
      envC3.salt "pw" =
      .ok (encExportData ⟨"1.0", cfgDemo, [("a".toList, [1])], 0⟩) := by
    rw [show envC3.encryptedData = ctC3 from rfl,
      show envC3.nonce = List.replicate 12 0 from rfl,
      show envC3.salt = [7] from rfl]
    rw [Crypto.decryptWithPassword, Crypto.decrypt]
    rw [if_neg (show ¬ (Crypto.deriveKey "pw" [7]).key.length ≠ 32 by
      simp [Crypto.deriveKey])]
    rw [if_neg ?_]
    · simp [Crypto.deriveKey, ctC3, aeadDecrypt_aeadEncrypt]
    · show ¬ (EncryptedValue.nonce ⟨List.replicate 12 0, ctC3, [7]⟩).length ≠ 12
      simp
  simp only [hdec, exportDataFromBytes_enc]
  rfl

theorem listEntries_impC3 :
    Storage.listEntries
      ⟨some cfgDemoN, some [("a.json".toList, FsTree.file [1])]⟩ =
      ["a".toList] := by
  have h1 : extIsJson "a.json".toList = true := by decide
  have h3 : stripJsonAll (joinSlash ([] ++ ["a.json".toList])) =
      "a".toList := by decide
  show List.insertionSort (fun a b : Str => a ≤ b)
    (walkDir [] [("a.json".toList, FsTree.file [1])]) = _
  rw [walkDir, walkDir, h1, if_pos rfl, h3]
  decide

/-- **C3 counterexample.**  On the (reachable but non-canonical) vault
holding the files `a.json` and `a.json.json`, both walk to the logical
key `a`, so `list_entries` is `[a, a]` while the export's `HashMap`
collapses the two reads into one; after importing the envelope with the
same password into a fresh vault, `list_entries` is `[a]`.  The round
trip does not preserve `list()` for every vault, refuting the claim as
stated. -/
theorem claim_C3_counterexample :
    Storage.exportVault fsC3 "s" "pw" [7] (List.replicate 12 0) [] 0 =
      .ok envC3 ∧
    Storage.importVault ⟨[], []⟩ envC3 "pw" "n" = (.ok (), fs2C3) ∧
    getAssoc "n" fs2C3.vaults =
      some ⟨some cfgDemoN, some [("a.json".toList, FsTree.file [1])]⟩ ∧
    Storage.listEntries vC3 = ["a".toList, "a".toList] ∧
    Storage.listEntries
      ⟨some cfgDemoN, some [("a.json".toList, FsTree.file [1])]⟩ =
      ["a".toList] ∧
    Storage.listEntries
        ⟨some cfgDemoN, some [("a.json".toList, FsTree.file [1])]⟩ ≠
      Storage.listEntries vC3 := by
  refine ⟨exportC3_eval, importC3_eval, rfl, listEntries_vC3,
    listEntries_impC3, ?_⟩
  rw [listEntries_vC3, listEntries_impC3]
  decide

/-- A canonical single-entry vault for the C3 witness. -/
def vC3w : VaultDir := ⟨some cfgDemo, some [("a.json".toList, FsTree.file [9])]⟩

def fsC3w : FS := ⟨[("s", vC3w)], []⟩

/-- Witness for C3 (amended) on a canonical single-entry vault,
discharging the well-formedness, canonicity, distinctness, freshness and
nonce-length hypotheses by evaluation. -/
theorem claim_C3_witness :
    ∃ env fs2' v',
      Storage.exportVault fsC3w "s" "pw" [7] (List.replicate 12 0) [] 42 =
        .ok env ∧
      Storage.importVault ⟨[], []⟩ env "pw" "n" = (.ok (), fs2') ∧
      getAssoc "n" fs2'.vaults = some v' ∧
      v'.config = some { cfgDemo with name := "n" } ∧
      Storage.listEntries v' = Storage.listEntries vC3w ∧
      (∀ k ∈ Storage.listEntries vC3w,
        Storage.readEntryFile v' k = Storage.readEntryFile vC3w k) ∧
      (∀ k ∈ Storage.listEntries vC3w, ∀ mk : MasterKey,
        Storage.loadEntry fs2' "n" k mk =
          Storage.loadEntry fsC3w "s" k mk) := by
  have hfd : filesOfDir [("a.json".toList, FsTree.file [9])] =
      [(["a.json".toList], [9])] := by
    rw [filesOfDir_cons, filesOfDir_nil, filesUnder_file, List.append_nil]
  exact claim_C3 fsC3w ⟨[], []⟩ "s" "n" "pw" [7] (List.replicate 12 0) []
    42 vC3w [("a.json".toList, FsTree.file [9])] cfgDemo
    rfl rfl rfl
    ⟨by decide, by
      intro p hp
      rw [List.mem_singleton] at hp
      rw [hp]
      exact WfTree.file [9]⟩
    (by
      intro P hP
      rw [hfd] at hP
      simp only [List.map_cons, List.map_nil, List.mem_singleton] at hP
      rw [hP]
      exact ⟨[], "a".toList, by decide,
        fun p hp => absurd hp (List.not_mem_nil p), by decide⟩)
    (by rw [hfd]; decide)
    rfl (by decide)

/-! ### C2 witness: a byte-flipped export blob is rejected -/

/-- The ciphertext exported from an empty demo vault. -/
def ctC2 : Bytes :=
  aeadEncrypt (Crypto.kdfBytes "pw" [3]) (List.replicate 12 0)
    (encExportData ⟨"1.0", cfgDemo, [], 7⟩)

def envC2 : ExportEnvelope :=
  ⟨true, "1.0", ctC2, List.replicate 12 0, [3], Crypto.checksum ctC2⟩

theorem exportC2_eval :
    Storage.exportVault ⟨[("e", ⟨some cfgDemo, some []⟩)], []⟩ "e" "pw"
      [3] (List.replicate 12 0) [] 7 = .ok envC2 := by
  have hle : Storage.listEntries ⟨some cfgDemo, some ([] : Dir)⟩ = [] := by
    show List.insertionSort (fun a b : Str => a ≤ b) (walkDir [] []) = _
    rw [walkDir]
    rfl
  rw [Storage.exportVault]
  simp only [show getAssoc "e"
      (⟨[("e", ⟨some cfgDemo, some []⟩)], []⟩ : FS).vaults =
      some ⟨some cfgDemo, some []⟩ from rfl,
    Option.getD_some]
  rw [hle]
  rw [show Storage.collectEntriesAux ⟨some cfgDemo, some []⟩ [] [] =
    .ok [] from rfl]
  simp only [Res.bindR_ok]
  rw [show Storage.loadConfig ⟨[("e", ⟨some cfgDemo, some []⟩)], []⟩ "e" =
    .ok cfgDemo from rfl]
  simp only [Res.bindR_ok]
  simp [Crypto.encryptWithPassword, Crypto.encrypt, Crypto.deriveKey,
    Res.bindR, envC2, ctC2]

/-- Witness for C2: the export of an empty demo vault, with the first
ciphertext byte (the value 32) overwritten by 0, is rejected by
`import_vault` with `ChecksumMismatch` — under a different password and
target name, and with the target filesystem returned unchanged. -/
theorem claim_C2_witness :
    Storage.importVault ⟨[], []⟩
      { envC2 with encryptedData := envC2.encryptedData.set 0 0 }
      "other" "n2" = (.err .ChecksumMismatch, ⟨[], []⟩) :=
  claim_C2 ⟨[("e", ⟨some cfgDemo, some []⟩)], []⟩ ⟨[], []⟩ "e" "n2" "pw"
    "other" [3] (List.replicate 12 0) [] 7 envC2 0 0 exportC2_eval
    (by decide) (by decide)

end Bunker
